import Mathlib

/-!
Verification of the melvin LVM library (Rust) against its natural-language
specification.  The Rust sources are shallowly embedded: byte buffers are
`List Nat` (each element < 256), `BTreeMap` is a sorted association list,
machine integers are `Nat`/`Int` (the code's `u64`/`i64` values never
overflow in the modelled paths; where Rust's `i64` range matters, the range
check is explicit), fallible functions return an explicit result type
`PRes` whose `crash` constructor models a Rust panic (`unwrap`,
out-of-bounds index, failed `assert`).  `String::from_utf8_lossy` is
modelled as the identity on bytes: every byte sequence it is applied to in
the modelled paths is either ASCII (identifiers) or is carried through
unchanged into the output.
-/

namespace Melvin

/-- Result of a Rust function in the embedding: `ok`, an `Err` return, or a
panic (`crash`). Error payloads (message strings) are dropped; where a claim
depends on the error contents a dedicated error type is used instead. -/
inductive PRes (α : Type) where
  | ok (a : α)
  | err
  | crash
deriving DecidableEq, Repr

namespace PRes

def map {α β : Type} (f : α → β) : PRes α → PRes β
  | .ok a => .ok (f a)
  | .err => .err
  | .crash => .crash

def bind {α β : Type} : PRes α → (α → PRes β) → PRes β
  | .ok a, f => f a
  | .err, _ => .err
  | .crash, _ => .crash

end PRes

/-- ASCII bytes of a Lean string literal (used for the fixed ASCII pieces
the Rust code emits, e.g. `b" = \""`). -/
def strB (s : String) : List Nat := s.toList.map Char.toNat

/-! ## Sorted association lists: the embedding of `BTreeMap` -/
/-- `BTreeMap::insert`: insert into a key-sorted association list,
replacing an existing binding of the same key. -/
def alInsert {K V : Type} [LinearOrder K] (k : K) (v : V) :
    List (K × V) → List (K × V)
  | [] => [(k, v)]
  | (k', v') :: t =>
    if k < k' then (k, v) :: (k', v') :: t
    else if k = k' then (k, v) :: t
    else (k', v') :: alInsert k v t

/-- `BTreeMap::get`. -/
def alLookup {K V : Type} [DecidableEq K] (k : K) : List (K × V) → Option V
  | [] => none
  | (k', v') :: t => if k = k' then some v' else alLookup k t

/-- The sortedness invariant `BTreeMap` maintains by construction. -/
def alSorted {K V : Type} [LinearOrder K] (l : List (K × V)) : Prop :=
  l.Pairwise (fun a b => a.1 < b.1)

/-- A block device's major/minor pair (`pv::dev::Device`); the `u8` minor
is a `Nat` here, which does not affect ordering. -/
structure Device where
  major : Nat
  minor : Nat
deriving DecidableEq, Repr

/-- `#[derive(Ord)]` on `Device` compares `(major, minor)` lexicographically. -/
def Device.toPair (d : Device) : Lex (Nat × Nat) := toLex (d.major, d.minor)

instance : LinearOrder Device :=
  LinearOrder.lift' Device.toPair (by
    intro a b h
    cases a; cases b
    simpa [Device.toPair, toLex, Prod.ext_iff, Device.mk.injEq] using h)

/-! ## The LVM text format: `parser.rs` -/
/-- `parser::Entry`; strings are byte lists. -/
inductive Entry where
  | num (n : Int)
  | str (s : List Nat)
  | list (l : List Entry)
  | map (m : List (List Nat × Entry))
deriving Repr

mutual

def decEqE : (a b : Entry) → Decidable (a = b)
  | .num a, .num b =>
    if h : a = b then .isTrue (by rw [h]) else .isFalse (fun hh => h (by injection hh))
  | .str a, .str b =>
    if h : a = b then .isTrue (by rw [h]) else .isFalse (fun hh => h (by injection hh))
  | .list a, .list b =>
    match decEqLE a b with
    | .isTrue h => .isTrue (by rw [h])
    | .isFalse h => .isFalse (fun hh => h (by injection hh))
  | .map a, .map b =>
    match decEqME a b with
    | .isTrue h => .isTrue (by rw [h])
    | .isFalse h => .isFalse (fun hh => h (by injection hh))
  | .num _, .str _ => .isFalse (fun h => Entry.noConfusion h)
  | .num _, .list _ => .isFalse (fun h => Entry.noConfusion h)
  | .num _, .map _ => .isFalse (fun h => Entry.noConfusion h)
  | .str _, .num _ => .isFalse (fun h => Entry.noConfusion h)
  | .str _, .list _ => .isFalse (fun h => Entry.noConfusion h)
  | .str _, .map _ => .isFalse (fun h => Entry.noConfusion h)
  | .list _, .num _ => .isFalse (fun h => Entry.noConfusion h)
  | .list _, .str _ => .isFalse (fun h => Entry.noConfusion h)
  | .list _, .map _ => .isFalse (fun h => Entry.noConfusion h)
  | .map _, .num _ => .isFalse (fun h => Entry.noConfusion h)
  | .map _, .str _ => .isFalse (fun h => Entry.noConfusion h)
  | .map _, .list _ => .isFalse (fun h => Entry.noConfusion h)

def decEqLE : (a b : List Entry) → Decidable (a = b)
  | [], [] => .isTrue rfl
  | [], _ :: _ => .isFalse (fun h => List.noConfusion h)
  | _ :: _, [] => .isFalse (fun h => List.noConfusion h)
  | x :: xs, y :: ys =>
    match decEqE x y with
    | .isFalse h => .isFalse (fun hh => h (by injection hh))
    | .isTrue h1 =>
      match decEqLE xs ys with
      | .isTrue h2 => .isTrue (by rw [h1, h2])
      | .isFalse h => .isFalse (fun hh => h (by injection hh))

def decEqME : (a b : List (List Nat × Entry)) → Decidable (a = b)
  | [], [] => .isTrue rfl
  | [], _ :: _ => .isFalse (fun h => List.noConfusion h)
  | _ :: _, [] => .isFalse (fun h => List.noConfusion h)
  | (k, v) :: xs, (k2, v2) :: ys =>
    if hk : k = k2 then
      match decEqE v v2 with
      | .isFalse h => .isFalse (fun hh => by
          injection hh with h1 h2; exact h (by rw [Prod.ext_iff] at h1; exact h1.2))
      | .isTrue h1 =>
        match decEqME xs ys with
        | .isTrue h2 => .isTrue (by rw [hk, h1, h2])
        | .isFalse h => .isFalse (fun hh => h (by injection hh))
    else .isFalse (fun hh => by
      injection hh with h1 h2; exact hk (by rw [Prod.ext_iff] at h1; exact h1.1))

end

instance : DecidableEq Entry := decEqE

/-- `parser::LvmTextMap`: a `BTreeMap<String, Entry>` as a sorted
association list keyed by the string's bytes. -/
abbrev TextMap := List (List Nat × Entry)

/-- `TextMapOps::i64_from_textmap`. -/
def i64FromTextmap (name : List Nat) (m : TextMap) : Option Int :=
  match alLookup name m with
  | some (.num x) => some x
  | _ => none

/-- `TextMapOps::string_from_textmap`. -/
def stringFromTextmap (name : List Nat) (m : TextMap) : Option (List Nat) :=
  match alLookup name m with
  | some (.str x) => some x
  | _ => none

/-- `TextMapOps::textmap_from_textmap`. -/
def textmapFromTextmap (name : List Nat) (m : TextMap) : Option TextMap :=
  match alLookup name m with
  | some (.map x) => some x
  | _ => none

/-- `TextMapOps::list_from_textmap`. -/
def listFromTextmap (name : List Nat) (m : TextMap) : Option (List Entry) :=
  match alLookup name m with
  | some (.list x) => some x
  | _ => none

/-! ### Decimal printing (`format!("{}", x)` for `i64`) -/
/-- Decimal digits (ASCII) of a natural number, most significant first;
structural on a fuel argument so that the kernel can evaluate it (the fuel
`n + 1` always suffices since `n / 10 < n` for `n ≥ 10`). -/
def natDecF : Nat → Nat → List Nat
  | 0, _ => []
  | fuel + 1, n => if n < 10 then [48 + n] else natDecF fuel (n / 10) ++ [48 + n % 10]

def natDec (n : Nat) : List Nat := natDecF (n + 1) n

/-- `format!("{}", x)` for an `i64` value. -/
def intDec (n : Int) : List Nat :=
  if n < 0 then 45 :: natDec n.natAbs else natDec n.toNat

/-! ### The serializer `parser::textmap_to_buf` -/
/-- One element of a serialized list: `"{string}"` or the decimal number;
nested lists/maps hit the source's `panic!("should not be in lists")`. -/
def elemBytes : Entry → PRes (List Nat)
  | .str s => .ok (34 :: (s ++ [34]))
  | .num n => .ok (intDec n)
  | _ => .crash

def elemsBytes : List Entry → PRes (List (List Nat))
  | [] => .ok []
  | e :: t => (elemBytes e).bind fun b => (elemsBytes t).map (b :: ·)

/-- `connect(", ")` (aka `join`). -/
def joinComma : List (List Nat) → List Nat
  | [] => []
  | [x] => x
  | x :: y :: t => x ++ strB ", " ++ joinComma (y :: t)

mutual

/-- `parser::textmap_to_buf`, the serializer.  Emits, for each entry in key
order, the bytes of `entryLine`. -/
def textmapToBuf : TextMap → PRes (List Nat)
  | [] => .ok []
  | (k, v) :: t =>
    (entryLine k v).bind fun line => (textmapToBuf t).map fun r => line ++ r

/-- One entry of `textmap_to_buf`'s output: `k = "s"\n`, `k = n\n`,
`k = [e, e]\n`, or `k {\n …(recursively)… }\n`. -/
def entryLine (k : List Nat) : Entry → PRes (List Nat)
  | .str s => .ok (k ++ strB " = \"" ++ s ++ strB "\"\n")
  | .num n => .ok (k ++ strB " = " ++ intDec n ++ strB "\n")
  | .list l =>
    (elemsBytes l).map fun zs => k ++ strB " = [" ++ joinComma zs ++ strB "]\n"
  | .map m =>
    (textmapToBuf m).map fun inner => k ++ strB " \x7b\n" ++ inner ++ strB "\x7d\n"

end

/-! ### The lexer (`parser::Lexer`) -/
/-- `parser::Token`. -/
inductive Tok where
  | curlyOpen
  | curlyClose
  | bracketOpen
  | bracketClose
  | eqTok
  | comma
  | str (s : List Nat)
  | ident (s : List Nat)
  | num (n : Int)
  | comment (s : List Nat)
  | invalid (c : Nat)
deriving DecidableEq, Repr

def isWs (c : Nat) : Bool := c = 32 || c = 10 || c = 9 || c = 0

def isDigit (c : Nat) : Bool := 48 ≤ c && c ≤ 57

def isAlpha (c : Nat) : Bool := (97 ≤ c && c ≤ 122) || (65 ≤ c && c ≤ 90)

/-- Characters that may start `Mode::Ident`: `a-z A-Z _ .`. -/
def identStartChar (c : Nat) : Bool := isAlpha c || c = 95 || c = 46

/-- Characters that continue `Mode::Ident`: `a-z A-Z 0-9 _ . -`. -/
def identChar (c : Nat) : Bool := isAlpha c || isDigit c || c = 95 || c = 46 || c = 45

/-- Numeric value of a nonempty all-digit byte string (`none` otherwise);
the digit part of `i64::from_str`. -/
def digitsVal (l : List Nat) : Option Nat :=
  if l = [] then none
  else if l.all isDigit then some (l.foldl (fun a c => a * 10 + (c - 48)) 0)
  else none

/-- `i64::from_str` on the slices the lexer's `Mode::Number` produces:
an optional `-` sign followed by digits, rejected when empty or out of the
`i64` range. -/
def parseI64 : List Nat → Option Int
  | [] => none
  | c :: rest =>
    if c = 45 then
      (digitsVal rest).bind fun v => if v ≤ 2 ^ 63 then some (-(v : Int)) else none
    else
      (digitsVal (c :: rest)).bind fun v => if v < 2 ^ 63 then some ((v : Int)) else none

/-- One `Lexer::next()` call on input `c :: rest` (the body of the
source's `while let` state machine, with `k` the continuation that lexes
the remaining bytes): emits one token (or skips whitespace) and continues.
Each `Mode` of the source corresponds to one branch; the slice a mode
accumulates between `first` and `cursor` is the corresponding
`takeWhile`, and `put_back` is the continuation running from the
`dropWhile` remainder. -/
def lexBody (k : List Nat → Bool → PRes (List Tok)) (c : Nat) (rest : List Nat)
    (flag : Bool) : PRes (List Tok) :=
  if c = 123 then (k rest true).map (Tok.curlyOpen :: ·)
  else if c = 125 then (k rest flag).map (Tok.curlyClose :: ·)
  else if c = 34 then
    match rest.dropWhile (fun b => !(b = 34)) with
    | [] => .ok []
    | _ :: r2 => (k r2 flag).map (Tok.str (rest.takeWhile (fun b => !(b = 34))) :: ·)
  else if identStartChar c then
    match rest.dropWhile identChar with
    | [] => .ok []
    | x :: xs => (k (x :: xs) false).map (Tok.ident (c :: rest.takeWhile identChar) :: ·)
  else if isDigit c || c = 45 then
    if flag then
      match rest.dropWhile identChar with
      | [] => .ok []
      | x :: xs => (k (x :: xs) false).map (Tok.ident (c :: rest.takeWhile identChar) :: ·)
    else
      match rest.dropWhile isDigit with
      | [] => .ok []
      | x :: xs =>
        match parseI64 (c :: rest.takeWhile isDigit) with
        | none => .crash
        | some n => (k (x :: xs) flag).map (Tok.num n :: ·)
  else if c = 35 then
    match rest.dropWhile (fun b => !(b = 10)) with
    | [] => .ok []
    | x :: xs => (k (x :: xs) flag).map (Tok.comment (35 :: rest.takeWhile (fun b => !(b = 10))) :: ·)
  else if c = 91 then (k rest flag).map (Tok.bracketOpen :: ·)
  else if c = 93 then (k rest flag).map (Tok.bracketClose :: ·)
  else if c = 61 then (k rest flag).map (Tok.eqTok :: ·)
  else if c = 44 then (k rest flag).map (Tok.comma :: ·)
  else if isWs c then k rest flag
  else (k rest flag).map (Tok.invalid c :: ·)

/-- The lexer loop, structural on a fuel argument (each recursive call
consumes at least one input byte, so fuel `length + 1` always suffices;
see `lexF_fuel_irrel`). -/
def lexF : Nat → List Nat → Bool → PRes (List Tok)
  | 0, _, _ => .ok []
  | _ + 1, [], _ => .ok []
  | fuel + 1, c :: rest, flag => lexBody (lexF fuel) c rest flag

/-- The lexer run to exhaustion (`Lexer::new(buf).collect()`). -/
def lexAll (buf : List Nat) (flag : Bool) : PRes (List Tok) :=
  lexF (buf.length + 1) buf flag

/-! ### The parser (`parser::get_textmap`) -/
/-- `parser::find_matching_token`'s scanning loop; `cnt` is `brace_count`. -/
def fmGo (b e : Tok) : List Tok → Int → Option (List Tok)
  | [], _ => none
  | t :: rest, cnt =>
    if t = b then (fmGo b e rest (cnt + 1)).map (t :: ·)
    else if t = e then
      if cnt - 1 = 0 then some [t] else (fmGo b e rest (cnt - 1)).map (t :: ·)
    else (fmGo b e rest cnt).map (t :: ·)

/-- `parser::find_matching_token`: the slice up to and including the token
matching `b`/`e` nesting, `none` (an `Err`) when unbalanced. -/
def findMatching (ts : List Tok) (b e : Tok) : Option (List Tok) := fmGo b e ts 0

/-- The loop body of `parser::get_list` (brackets already stripped). -/
def getListGo : List Tok → PRes (List Entry)
  | [] => .ok []
  | .num n :: t => (getListGo t).map (Entry.num n :: ·)
  | .str s :: t => (getListGo t).map (Entry.str s :: ·)
  | .comma :: t => getListGo t
  | _ => .err

/-- `parser::get_list`; the `assert_eq!` checks on the enclosing brackets
panic (`crash`) when violated, as does `first().unwrap()` on `[]`. -/
def getList (ts : List Tok) : PRes (List Entry) :=
  match ts with
  | [] => .crash
  | t :: rest =>
    if t = Tok.bracketOpen then
      match ts.getLast? with
      | some Tok.bracketClose => getListGo rest.dropLast
      | _ => .crash
    else .crash

/-- The body of one iteration of `get_textmap`'s
`while tokens[cur] != Token::CurlyClose` loop, operating on the suffix of
the token slice from index `cur`; `gt` and `gl` are the continuations for
a nested `get_textmap` call and for the next loop iteration.  Running off
the end of the slice is the source's out-of-bounds index panic
(`crash`). -/
def gtBody (gt : List Tok → PRes TextMap) (gl : List Tok → TextMap → PRes TextMap) :
    List Tok → TextMap → PRes TextMap
  | [], _ => .crash
  | Tok.curlyClose :: _, acc => .ok acc
  | Tok.comment _ :: rest, acc => gl rest acc
  | Tok.ident k :: rest, acc =>
    match rest with
    | [] => .crash
    | Tok.eqTok :: rest2 =>
      match rest2 with
      | [] => .crash
      | Tok.num n :: r3 => gl r3 (alInsert k (Entry.num n) acc)
      | Tok.str s :: r3 => gl r3 (alInsert k (Entry.str s) acc)
      | Tok.bracketOpen :: rtail =>
        match findMatching (Tok.bracketOpen :: rtail) Tok.bracketOpen Tok.bracketClose with
        | none => .err
        | some slc =>
          (getList slc).bind fun l =>
            gl ((Tok.bracketOpen :: rtail).drop slc.length) (alInsert k (Entry.list l) acc)
      | _ => .err
    | Tok.curlyOpen :: rtail =>
      match findMatching (Tok.curlyOpen :: rtail) Tok.curlyOpen Tok.curlyClose with
      | none => .err
      | some slc =>
        (gt slc).bind fun tm =>
          gl ((Tok.curlyOpen :: rtail).drop slc.length) (alInsert k (Entry.map tm) acc)
    | _ => .err
  | _ :: _, _ => .err

mutual

/-- `parser::get_textmap`, structural on a fuel argument (each call hands
a strictly shorter token slice to the next, so fuel `length + 1` always
suffices; see `getTextmapF_fuel_irrel`).  The `assert_eq!`s on the
enclosing curly braces panic when violated; the body is the loop starting
at index 1. -/
def getTextmapF : Nat → List Tok → PRes TextMap
  | 0, _ => .crash
  | fuel + 1, ts =>
    match ts with
    | [] => .crash
    | t :: rest =>
      if t = Tok.curlyOpen then
        match ts.getLast? with
        | some Tok.curlyClose => gtLoopF fuel rest []
        | _ => .crash
      else .crash

def gtLoopF : Nat → List Tok → TextMap → PRes TextMap
  | 0, _, _ => .crash
  | fuel + 1, ts, acc => gtBody (getTextmapF fuel) (gtLoopF fuel) ts acc

end

/-- `parser::get_textmap`. -/
def getTextmap (ts : List Tok) : PRes TextMap := getTextmapF (ts.length + 1) ts

/-- `parser::buf_to_textmap`: lex, wrap in implicit `{` `}`, parse. -/
def bufToTextmap (buf : List Nat) : PRes TextMap :=
  match lexAll buf false with
  | .ok toks => getTextmap (Tok.curlyOpen :: (toks ++ [Tok.curlyClose]))
  | .err => .err
  | .crash => .crash

/-! ### Well-formedness of parser-produced maps -/
/-- A scalar entry as the parser produces it inside lists: an `i64`-range
number, or a string that cannot contain `"` (the lexer ends the string
token at the first `"`). -/
def scalarOK : Entry → Bool
  | .num n => decide (-(2 ^ 63) ≤ n) && decide (n < 2 ^ 63)
  | .str s => s.all fun b => !(b = 34)
  | _ => false

/-- Keys that serialize back to a single `Ident` token regardless of the
`next_is_ident` flag: nonempty, made of identifier characters, and (the
amendment of claim C3) led by a letter, `_` or `.` rather than a digit
or `-`. -/
def keyOK (k : List Nat) : Bool :=
  match k with
  | [] => false
  | c :: t => identStartChar c && t.all identChar

/-- Keys strictly ascending: what `BTreeMap`'s ordering gives for free. -/
def keysSortedB : TextMap → Bool
  | [] => true
  | [_] => true
  | x :: y :: t => decide (x.1 < y.1) && keysSortedB (y :: t)

mutual

/-- Well-formedness of the entries of a parsed map (with digit-led keys
excluded): keys lex as single idents, strings quote-free, numbers in `i64`
range, lists scalar-only, nested maps sorted. -/
def wfT : TextMap → Bool
  | [] => true
  | (k, v) :: t => keyOK k && wfE v && wfT t

def wfE : Entry → Bool
  | .num n => decide (-(2 ^ 63) ≤ n) && decide (n < 2 ^ 63)
  | .str s => s.all fun b => !(b = 34)
  | .list l => l.all scalarOK
  | .map m => keysSortedB m && wfT m

end

/-- The hypothesis of the amended round-trip claim: sorted at top level and
well-formed throughout.  Everything here except the digit-led-key exclusion
inside `keyOK` is automatic for maps produced by `buf_to_textmap`. -/
def wfTop (m : TextMap) : Bool := keysSortedB m && wfT m

/-! ### The serializer described by the spec (for claims C8 and C3) -/
/-- Modelled from the spec: the scalar value forms of §4.2 — strings
double-quoted verbatim, numbers in decimal.  The spec's grammar admits only
scalars inside lists, so other entries render as nothing. -/
def specScalar : Entry → List Nat
  | .num n => intDec n
  | .str s => 34 :: (s ++ [34])
  | _ => []

/-- Modelled from the spec: `iw`-space indentation per nesting level
(`iw = 2` is what the spec's serializer-rules sentence claims). -/
def specPad (iw ind : Nat) : List Nat := List.replicate (iw * ind) 32

mutual

/-- Modelled from the spec's serializer rules: one line (or section) per
entry, in order. -/
def specSer (iw : Nat) : Nat → TextMap → List Nat
  | _, [] => []
  | ind, (k, v) :: t => specEntry iw ind k v ++ specSer iw ind t

/-- Modelled from the spec's serializer rules: `key = value\n` for
scalars, lists on a single line `[a, b, c]`, sections as
`key {\n ... }\n`, with `iw` spaces of indentation per nesting level
(`iw = 2` is what the spec's serializer-rules sentence claims). -/
def specEntry (iw : Nat) : Nat → List Nat → Entry → List Nat
  | ind, k, Entry.map m =>
    specPad iw ind ++ k ++ strB " \x7b\n" ++ specSer iw (ind + 1) m ++ specPad iw ind ++ strB "\x7d\n"
  | ind, k, Entry.list l =>
    specPad iw ind ++ k ++ strB " = [" ++
      List.intercalate (strB ", ") (l.map specScalar) ++ strB "]\n"
  | ind, k, v => specPad iw ind ++ k ++ strB " = " ++ specScalar v ++ strB "\n"

end

/-- `Number` or `String`. -/
def isScalarCtor : Entry → Bool
  | .num _ => true
  | .str _ => true
  | _ => false

mutual

/-- All lists inside an entry contain only `Number`/`String` elements
(what keeps `textmap_to_buf` away from its
`panic!("should not be in lists")`). -/
def listsScalarE : Entry → Bool
  | .num _ => true
  | .str _ => true
  | .list l => l.all isScalarCtor
  | .map m => listsScalarT m

def listsScalarT : TextMap → Bool
  | [] => true
  | (_, v) :: t => listsScalarE v && listsScalarT t

end

/-- All lists inside a map are scalar-only. -/
def listsScalar (m : TextMap) : Bool := listsScalarT m

/-! ### The round-trip proof (claim C3) -/
/-- The token of one scalar list element (lists are scalar-only in
well-formed maps; the junk value is unreachable). -/
def scalarTok : Entry → Tok
  | .num n => .num n
  | .str s => .str s
  | _ => .invalid 0

/-- Tokens of a serialized list body (elements separated by commas). -/
def listToks : List Entry → List Tok
  | [] => []
  | [e] => [scalarTok e]
  | e :: e2 :: t => scalarTok e :: Tok.comma :: listToks (e2 :: t)

mutual

/-- The token stream the lexer produces from a serialized map. -/
def toksT : TextMap → List Tok
  | [] => []
  | (k, v) :: t => toksE k v ++ toksT t

def toksE (k : List Nat) : Entry → List Tok
  | .num n => [Tok.ident k, Tok.eqTok, Tok.num n]
  | .str s => [Tok.ident k, Tok.eqTok, Tok.str s]
  | .list l => [Tok.ident k, Tok.eqTok, Tok.bracketOpen] ++ listToks l ++ [Tok.bracketClose]
  | .map m => [Tok.ident k, Tok.curlyOpen] ++ toksT m ++ [Tok.curlyClose]

end

/-- Lexing is independent of the incoming `next_is_ident` flag for these
bytes (true of every serialized well-formed map, whose keys never begin
with a digit). -/
def FlagInv (bs : List Nat) : Prop := ∀ f1 f2 : Bool, lexAll bs f1 = lexAll bs f2

/-! The parsing direction: `find_matching_token` on balanced streams, and
`get_textmap` recovering the map from its token stream. -/
/-- The contribution of one token to `find_matching_token`'s
`brace_count` for delimiters `b`/`e`. -/
def tdel (b e t : Tok) : Int := if t = b then 1 else if t = e then -1 else 0

/-- Total `brace_count` change over a token list. -/
def dsumBE (b e : Tok) (ts : List Tok) : Int := (ts.map (tdel b e)).sum

/-- Starting from count `c`, the running count stays at least 1
throughout `ts`. -/
def preOK (b e : Tok) : Int → List Tok → Prop
  | _, [] => True
  | c, t :: rest => 1 ≤ c + tdel b e t ∧ preOK b e (c + tdel b e t) rest

/-- The parser loop with canonical fuel. -/
def gtLoopW (ts : List Tok) (acc : TextMap) : PRes TextMap := gtLoopF (ts.length + 1) ts acc

/-! ## The volume-group model (`vg.rs`, `lv.rs`, `pv.rs`)

Strings are byte lists (as in the parser model above), `BTreeMap`s are
sorted association lists operated on by `alInsert`/`alLookup`.  Externally
sourced values (`make_uuid`, `uname`, `now`, the devicemapper calls, the
data read from a `PvHeader`) are passed in as parameters; the creation
stamps, `format` and the constant `flags`/`max_lv`/`max_pv`/
`metadata_copies` fields, which no claim mentions, are omitted from the
structures. -/
/-- `lv::segment::StripedSegment`. -/
structure StripedSegment where
  start_extent : Nat
  extent_count : Nat
  stripe_size : Option Nat
  stripes : List (Device × Nat)
deriving DecidableEq, Repr

/-- `lv::LV` (name, uuid and segments; only striped segments occur in the
operations under study). -/
structure LV where
  name : List Nat
  id : List Nat
  segments : List StripedSegment
deriving DecidableEq, Repr

/-- `pv::PV` (dropping the constant `status`/`flags`). -/
structure PV where
  id : List Nat
  device : Device
  dev_size : Nat
  pe_start : Nat
  pe_count : Nat
deriving DecidableEq, Repr

/-- `vg::VG` (name, uuid, seqno, extent size, status, PV map, LV map). -/
structure VG where
  name : List Nat
  id : List Nat
  seqno : Nat
  extent_size : Nat
  status : List (List Nat)
  pvs : List (Device × PV)
  lvs : List (List Nat × LV)
deriving DecidableEq, Repr

/-- `BTreeMap::remove` (the removal itself; presence is checked at the
call site). -/
def alErase {K V : Type} [DecidableEq K] (k : K) : List (K × V) → List (K × V)
  | [] => []
  | (k', v') :: t => if k = k' then t else (k', v') :: alErase k t

/-- `StripedSegment::used_areas`: one `(device, start, extent_count)`
triple per stripe. -/
def StripedSegment.used_areas (s : StripedSegment) : List (Device × Nat × Nat) :=
  s.stripes.map (fun dv => (dv.1, dv.2, s.extent_count))

/-- `StripedSegment::pv_dependencies`. -/
def StripedSegment.pv_dependencies (s : StripedSegment) : List Device :=
  s.stripes.map (fun dv => dv.1)

/-- `lv::used_areas`: concatenation over the LV's segments. -/
def LV.used_areas (lv : LV) : List (Device × Nat × Nat) :=
  (lv.segments.map StripedSegment.used_areas).flatten

/-- One step of `VG::used_areas`'s
`used_map.entry(device).or_insert(BTreeMap::new()).insert(start, len)`. -/
def used_areas_ins (d : Device) (s len : Nat)
    (m : List (Device × List (Nat × Nat))) : List (Device × List (Nat × Nat)) :=
  alInsert d (alInsert s len ((alLookup d m).getD [])) m

/-- `VG::used_areas`: `{Device: {start: len}}` accumulated over all LVs in
key order. -/
def VG.used_areas (vg : VG) : List (Device × List (Nat × Nat)) :=
  vg.lvs.foldl (fun m kv =>
    (LV.used_areas kv.2).foldl (fun m2 t => used_areas_ins t.1 t.2.1 t.2.2 m2) m) []

/-- The gap-emitting fold inside `VG::free_areas`: the accumulator is
`prev_end`, a gap `(prev_end, start - prev_end)` is emitted whenever
`prev_end < start`. -/
def free_gaps : Nat → List (Nat × Nat) → List (Nat × Nat)
  | _, [] => []
  | prev_end, (start, len) :: rest =>
    if prev_end < start then (prev_end, start - prev_end) :: free_gaps (start + len) rest
    else free_gaps (start + len) rest

/-- The first loop of `VG::free_areas`: for each device of `used_areas`,
insert the sentinel `(pe_count, 0)`, fold out the gaps, and record them
(devices without gaps get no entry).  A used device that is not a PV of
the VG hits the source's `expect`. -/
def free_areas_go (pvs : List (Device × PV)) :
    List (Device × List (Nat × Nat)) → List (Device × List (Nat × Nat)) →
    PRes (List (Device × List (Nat × Nat)))
  | fm, [] => .ok fm
  | fm, (dev, amap) :: rest =>
    match alLookup dev pvs with
    | none => .crash
    | some pv =>
      let gaps := free_gaps 0 (alInsert pv.pe_count 0 amap)
      free_areas_go pvs (if gaps.isEmpty then fm else alInsert dev gaps fm) rest

/-- The second loop of `VG::free_areas`: any PV with no entry yet is
reported as one whole free area `[0, pe_count)`. -/
def free_areas_unused : List (Device × PV) → List (Device × List (Nat × Nat)) →
    List (Device × List (Nat × Nat))
  | [], fm => fm
  | (dev, pv) :: rest, fm =>
    free_areas_unused rest
      (if (alLookup dev fm).isSome then fm else alInsert dev (alInsert 0 pv.pe_count []) fm)

/-- `VG::free_areas`. -/
def VG.free_areas (vg : VG) : PRes (List (Device × List (Nat × Nat))) :=
  PRes.map (free_areas_unused vg.pvs) (free_areas_go vg.pvs [] (VG.used_areas vg))

/-- `VG::commit`: bump `seqno`, then serialize (the textmap written to
every PV records the bumped `seqno` as `Entry::Number`); the write itself
is modeled in the on-disk section. -/
def VG.commit (vg : VG) : VG := { vg with seqno := vg.seqno + 1 }

/-- u64 bitwise AND, one bit at a time over the 64 bit positions. -/
def land64go : Nat → Nat → Nat → Nat
  | 0, _, _ => 0
  | fuel + 1, x, y => x % 2 * (y % 2) + 2 * land64go fuel (x / 2) (y / 2)

def land64 (x y : Nat) : Nat := land64go 64 x y

/-- `util::align_to`: `(num + align - 1) & !(align - 1)` on 64-bit
`usize`; the complement of `align - 1` is `2 ^ 64 - align`. -/
def align_to (num align : Nat) : Nat := land64 (num + align - 1) (2 ^ 64 - align)

/-- The data `VG::pv_add` reads from a `PvHeader`: device number, device
byte size, data-area byte offsets, metadata-area byte sizes, uuid, and
whether `read_metadata()` succeeds (meaning the PV already belongs to a
VG). -/
structure PvInfo where
  dev : Device
  size : Nat
  da_offsets : List Nat
  mda_sizes : List Nat
  uuid : List Nat
  has_meta : Bool
deriving DecidableEq, Repr

/-- `VG::pv_add` (`SECTOR_SIZE` = 512): reject a device already in the
VG or already carrying VG metadata, compute the extent geometry from the
first data area, insert the PV and commit. -/
def VG.pv_add (vg : VG) (pvh : PvInfo) : PRes VG :=
  if (alLookup pvh.dev vg.pvs).isSome then .err
  else if pvh.has_meta then .err
  else match pvh.da_offsets.head? with
  | none => .err
  | some da_offset =>
    let dev_size_sectors := pvh.size / 512
    let pe_start_sectors := align_to (da_offset / 512) vg.extent_size
    let mda1_size_sectors := match pvh.mda_sizes[1]? with
      | some s => s / 512
      | none => 0
    let area_size_sectors := dev_size_sectors - pe_start_sectors - mda1_size_sectors
    let pe_count := area_size_sectors / vg.extent_size
    let pv : PV := ⟨pvh.uuid, pvh.dev, dev_size_sectors, pe_start_sectors, pe_count⟩
    PRes.ok (VG.commit { vg with pvs := alInsert pvh.dev pv vg.pvs })

/-- The `for path in &pv_paths { vg.pv_add(path)? }` loop of
`VG::create`. -/
def pv_add_all (vg : VG) : List PvInfo → PRes VG
  | [] => .ok vg
  | p :: rest => PRes.bind (VG.pv_add vg p) (fun vg2 => pv_add_all vg2 rest)

/-- `VG::create` (uuid passed in for `make_uuid`): requires at least one
PV path and at least one metadata area over all PVs, starts from
`seqno = 0`, extent size 8192 and status `READ`/`WRITE`/`RESIZEABLE`,
then folds in each PV via `pv_add`. -/
def VG.create (name : List Nat) (id : List Nat) (pvhs : List PvInfo) : PRes VG :=
  if pvhs.isEmpty then .err
  else if (pvhs.map (fun p => p.mda_sizes.length)).sum = 0 then .err
  else pv_add_all
    ⟨name, id, 0, 8192, [strB "READ", strB "WRITE", strB "RESIZEABLE"], [], []⟩ pvhs

/-- The outcomes of `VG::pv_remove`: success, `"PV in use by LV {lvname}"`,
or `"Could not remove PV"`. -/
inductive PvRemoveResult where
  | ok (vg : VG)
  | inUse (lvname : List Nat)
  | notFound
deriving DecidableEq, Repr

/-- The inner double loop of `VG::pv_remove`'s scan: does any segment of
the LV depend on the device? -/
def lv_uses (dev : Device) (lv : LV) : Bool :=
  lv.segments.any (fun seg => (StripedSegment.pv_dependencies seg).any (fun d => d = dev))

/-- The scan loop of `VG::pv_remove`: first LV (in key order) one of whose
segments depends on the device. -/
def find_in_use (dev : Device) : List (List Nat × LV) → Option (List Nat)
  | [] => none
  | (lvname, lv) :: rest =>
    if lv_uses dev lv then some lvname else find_in_use dev rest

/-- `VG::pv_remove`: refuse while any LV uses the device (before touching
any state), otherwise remove the PV and commit. -/
def VG.pv_remove (vg : VG) (dev : Device) : PvRemoveResult :=
  match find_in_use dev vg.lvs with
  | some lvname => .inUse lvname
  | none =>
    if (alLookup dev vg.pvs).isSome
    then .ok (VG.commit { vg with pvs := alErase dev vg.pvs })
    else .notFound

/-- The inner loop of `lv_create_linear`'s scan: first area of the list
with `len >= extent_size` (the `break` leaves only this inner loop). -/
def first_fit (n : Nat) : List (Nat × Nat) → Option (Nat × Nat)
  | [] => none
  | (start, len) :: rest => if n ≤ len then some (start, len) else first_fit n rest

/-- The whole scan: `contig_area` is overwritten by every PV whose area
list has a fitting area, so the last such PV (in key order) wins. -/
def find_contig (n : Nat) (fa : List (Device × List (Nat × Nat))) :
    Option (Device × Nat × Nat) :=
  fa.foldl (fun acc dv =>
    match first_fit n dv.2 with
    | some sl => some (dv.1, sl.1, sl.2)
    | none => acc) none

/-- `VG::lv_create_linear` (uuid passed in; the devicemapper setup call is
modeled as succeeding).  The `extent_count` parameter is named
`extent_size` in the source — it is the number of extents requested. -/
def VG.lv_create_linear (vg : VG) (name newid : List Nat) (extent_count : Nat) :
    PRes VG :=
  if (alLookup name vg.lvs).isSome then .err
  else
    PRes.bind (VG.free_areas vg) (fun fa =>
      match find_contig extent_count fa with
      | none => .err
      | some dsl =>
        let seg : StripedSegment := ⟨0, extent_count, none, [(dsl.1, dsl.2.1)]⟩
        let lv : LV := ⟨name, newid, [seg]⟩
        PRes.ok (VG.commit { vg with lvs := alInsert name lv vg.lvs }))

/-! ### Allocator characterization -/
/-- Spec-modelled (for the amended first-fit claim): the scan's result is
the **last** PV, in the free map's key order, whose area list has a
fitting area — paired with the **first** fitting area (in start order) on
that PV. -/
def last_fit_spec (n : Nat) (fa : List (Device × List (Nat × Nat))) :
    Option (Device × Nat × Nat) :=
  (fa.filterMap (fun dv =>
    (dv.2.find? (fun sl => n ≤ sl.2)).map (fun sl => (dv.1, sl.1, sl.2)))).getLast?

/-! ### Concrete volume-group fixtures used by the examples -/
def dev1 : Device := ⟨8, 16⟩

def dev2 : Device := ⟨8, 32⟩

/-- PV of 32 extents (geometry as produced by `pv_add`: 1 MiB data-area
offset, extent size 8192 sectors). -/
def pv32 : PV := ⟨[], dev1, 270336, 8192, 32⟩

/-- PV of 64 extents. -/
def pv64 : PV := ⟨[], dev2, 532480, 8192, 64⟩

def stat3 : List (List Nat) := [strB "READ", strB "WRITE", strB "RESIZEABLE"]

/-- Two-PV VG with no LVs (both PVs entirely free). -/
def vg_free2 : VG := ⟨strB "t", [], 2, 8192, stat3, [(dev1, pv32), (dev2, pv64)], []⟩

/-- The claim's allocator scenario: an LV over extents `[0..24)` of `dev1`. -/
def vg_scn : VG := ⟨strB "t", [], 1, 8192, stat3, [(dev1, pv32), (dev2, pv64)],
  [(strB "small", ⟨strB "small", [], [⟨0, 24, none, [(dev1, 0)]⟩]⟩)]⟩

/-- `vg_scn` after `lv_create_linear("big", 40)`. -/
def vg_scn2 : VG := ⟨strB "t", [], 2, 8192, stat3, [(dev1, pv32), (dev2, pv64)],
  [(strB "big", ⟨strB "big", [], [⟨0, 40, none, [(dev2, 0)]⟩]⟩),
   (strB "small", ⟨strB "small", [], [⟨0, 24, none, [(dev1, 0)]⟩]⟩)]⟩

/-- Single-PV VG with no LVs. -/
def vg_one : VG := ⟨strB "t", [], 1, 8192, stat3, [(dev1, pv32)], []⟩

/-- `vg_one` after `lv_create_linear("l", 32)`: its only PV fully used. -/
def vg_full : VG := ⟨strB "t", [], 2, 8192, stat3, [(dev1, pv32)],
  [(strB "l", ⟨strB "l", [], [⟨0, 32, none, [(dev1, 0)]⟩]⟩)]⟩

/-- A VG holding one untouched PV whose data area is too small for even
one extent (`pe_count = 0`). -/
def vg_zero : VG := ⟨strB "t", [], 0, 8192, stat3,
  [(⟨8, 48⟩, ⟨[], ⟨8, 48⟩, 16384, 8192, 0⟩)], []⟩

/-- `PvHeader` data for a 132 MiB device: 1 MiB data-area offset, two
metadata areas (the second of size 0), no VG metadata yet — `pv_add`
computes 32 extents. -/
def pvinfo1 : PvInfo := ⟨dev1, 138412032, [1048576], [1047552, 0], [], false⟩

/-- Same geometry for a 260 MiB device: 64 extents. -/
def pvinfo2 : PvInfo := ⟨dev2, 272629760, [1048576], [1047552, 0], [], false⟩

/-- The VG `VG::create("t", [pvinfo1, pvinfo2])` builds. -/
def vg_created : VG := ⟨strB "t", [], 2, 8192, stat3,
  [(dev1, ⟨[], dev1, 270336, 8192, 32⟩), (dev2, ⟨[], dev2, 532480, 8192, 64⟩)], []⟩

/-! ## Striped-segment textmaps (`lv.rs`: `StripedSegment::{to,from}_textmap`) -/
/-- The `as i64` reinterpretation of a `u64`. -/
def i64_of_u64 (n : Nat) : Int := if n < 2 ^ 63 then (n : Int) else (n : Int) - 2 ^ 64

/-- The `as u64` reinterpretation of an `i64`. -/
def u64_of_i64 (x : Int) : Nat := (x % 2 ^ 64).toNat

/-- The `"stripes"` list of `StripedSegment::to_textmap`: for each stripe
`(dev, start)` two entries, the string `pv{idx}` (from the `dev_to_idx`
table; a missing device hits the source's `unwrap`) and the start as a
number. -/
def stripes_entries (dev_to_idx : List (Device × Nat)) :
    List (Device × Nat) → PRes (List Entry)
  | [] => .ok []
  | (d, v) :: rest =>
    match alLookup d dev_to_idx with
    | none => .crash
    | some idx =>
      PRes.map (fun es => Entry.str (strB "pv" ++ natDec idx) ::
        Entry.num (i64_of_u64 v) :: es) (stripes_entries dev_to_idx rest)

/-- `StripedSegment::to_textmap` (`impl Segment for StripedSegment`). -/
def StripedSegment.to_textmap (s : StripedSegment) (dev_to_idx : List (Device × Nat)) :
    PRes TextMap :=
  PRes.map (fun stripes_list =>
    let m0 : TextMap := []
    let m1 := alInsert (strB "start_extent") (Entry.num (i64_of_u64 s.start_extent)) m0
    let m2 := alInsert (strB "extent_count") (Entry.num (i64_of_u64 s.extent_count)) m1
    let m3 := alInsert (strB "type") (Entry.str (strB "striped")) m2
    let m4 := alInsert (strB "stripe_count") (Entry.num (Int.ofNat s.stripes.length)) m3
    let m5 := match s.stripe_size with
      | some ss => alInsert (strB "stripe_size") (Entry.num (i64_of_u64 ss)) m4
      | none => m4
    alInsert (strB "stripes") (Entry.list stripes_list) m5)
    (stripes_entries dev_to_idx s.stripes)

/-- The `stripe_list.chunks(2)` loop of `StripedSegment::from_textmap`:
each chunk is a pv-name string (looked up in the `pvs` table for its
device) followed by a number; a lone trailing element makes `slc[1]`
panic, any other shape is a parse error. -/
def stripes_from (pvs : List (List Nat × Device)) : List Entry → PRes (List (Device × Nat))
  | [] => .ok []
  | Entry.str x :: rest =>
    (match alLookup x pvs with
    | none => .err
    | some dev =>
      match rest with
      | [] => .crash
      | Entry.num n :: rest2 =>
        PRes.map (fun l => (dev, u64_of_i64 n) :: l) (stripes_from pvs rest2)
      | _ :: _ => .err)
  | _ :: _ => .err

/-- `StripedSegment::from_textmap`.  Note the last field: the source reads
`stripe_size` from the `"start_extent"` key. -/
def StripedSegment.from_textmap (m : TextMap) (pvs : List (List Nat × Device)) :
    PRes StripedSegment :=
  match listFromTextmap (strB "stripes") m with
  | none => .err
  | some stripe_list =>
    PRes.bind (stripes_from pvs stripe_list) (fun stripes =>
      match i64FromTextmap (strB "start_extent") m with
      | none => .err
      | some se =>
        match i64FromTextmap (strB "extent_count") m with
        | none => .err
        | some ec =>
          PRes.ok ⟨u64_of_i64 se, u64_of_i64 ec,
            (i64FromTextmap (strB "start_extent") m).map u64_of_i64, stripes⟩)

/-! ## On-disk metadata areas (`pvlabel.rs`, `util.rs`)

The device is a byte list; `seek`/`read`/`write_all` become positional
list reads and in-place region overwrites (all accesses in the scenarios
stay within the device).  Bitwise `u32` operations are modeled bit by
bit so every definition evaluates in the kernel. -/
/-- u32 bitwise XOR. -/
def xor32 (x y : Nat) : Nat := Nat.xor (x % 2 ^ 32) (y % 2 ^ 32)

/-- u32 bitwise NOT. -/
def not32 (x : Nat) : Nat := 2 ^ 32 - 1 - x % 2 ^ 32

/-- One bit step of `crc32::make_table(0xedb88320)`'s entry computation. -/
def crc_bit (t : Nat) : Nat := if t % 2 = 1 then xor32 (t / 2) 0xedb88320 else t / 2

def crc_bitn : Nat → Nat → Nat
  | 0, t => t
  | fuel + 1, t => crc_bitn fuel (crc_bit t)

/-- `crc32::update(crc, &table, buf)` with the table entry
`table[i] = crc_bitn 8 i` inlined: per byte,
`crc = table[(crc ^ byte) & 0xFF] ^ (crc >> 8)`.  The new accumulator is
matched to a numeral before the recursive call (the match is the
identity), which keeps kernel evaluation of long buffers shallow. -/
def crc32_update : Nat → List Nat → Nat
  | crc, [] => crc
  | crc, b :: rest =>
    match xor32 (crc_bitn 8 (xor32 (crc % 256) (b % 256))) (crc / 256) with
    | 0 => crc32_update 0 rest
    | c + 1 => crc32_update (c + 1) rest

/-- `util::crc32_calc`: `!crc32::update(!0xf597a6cf, table(0xedb88320), buf)`. -/
def crc32_calc (buf : List Nat) : Nat := not32 (crc32_update (not32 0xf597a6cf) buf)

/-- `LittleEndian::read_uXX`: little-endian value of the first `k` bytes. -/
def rdleGo : Nat → List Nat → Nat
  | 0, _ => 0
  | _ + 1, [] => 0
  | fuel + 1, b :: t => b + 256 * rdleGo fuel t

def read_u32 (l : List Nat) : Nat := rdleGo 4 l

def read_u64 (l : List Nat) : Nat := rdleGo 8 l

/-- `LittleEndian::write_uXX`: the `k` little-endian bytes of `x`. -/
def wrleGo : Nat → Nat → List Nat
  | 0, _ => []
  | fuel + 1, x => x % 256 :: wrleGo fuel (x / 256)

def le32 (x : Nat) : List Nat := wrleGo 4 x

def le64 (x : Nat) : List Nat := wrleGo 8 x

/-- Overwrite `src.length` bytes of `dst` starting at `pos`
(`seek` + `write_all`). -/
def bytes_write (dst : List Nat) (pos : Nat) (src : List Nat) : List Nat :=
  dst.take pos ++ src ++ dst.drop (pos + src.length)

/-- Read `n` bytes of `f` starting at `pos` (`seek` + `read` into an
`n`-byte slice, which the in-scenario devices always fill). -/
def bytes_read (f : List Nat) (pos n : Nat) : List Nat := (f.drop pos).take n

/-- `pvlabel::PvArea` (byte offset and size of the metadata area). -/
structure PvArea where
  offset : Nat
  size : Nat
deriving DecidableEq, Repr

/-- `pvlabel::RawLocn`. -/
structure RawLocn where
  offset : Nat
  size : Nat
  checksum : Nat
  ignored : Bool
deriving DecidableEq, Repr

/-- `MDA_MAGIC`. -/
def mda_magic : List Nat := [32, 76, 86, 77, 50, 32, 120, 91, 53, 65, 37, 114, 48, 78, 42, 62]

/-- `PvHeader::read_mda_header` (`MDA_HEADER_SIZE` = 512): check the
header CRC, magic, version, start and size fields, then return the first
raw location (`iter_raw_locn` yields `None` for a zero offset field). -/
def read_mda_header (area : PvArea) (f : List Nat) : PRes (Option RawLocn) :=
  if ¬512 < area.size then .crash
  else
    let hdr := bytes_read f area.offset 512
    if ¬read_u32 hdr = crc32_calc (hdr.drop 4) then .err
    else if ¬(hdr.drop 4).take 16 = mda_magic then .err
    else if ¬read_u32 (hdr.drop 20) = 1 then .err
    else if ¬read_u64 (hdr.drop 24) = area.offset then .err
    else if ¬read_u64 (hdr.drop 32) = area.size then .err
    else
      let rlbuf := hdr.drop 40
      let off := read_u64 rlbuf
      if off = 0 then .ok none
      else .ok (some ⟨off, read_u64 (rlbuf.drop 8), read_u32 (rlbuf.drop 16),
        read_u32 (rlbuf.drop 20) % 2 = 1⟩)

/-- `PvHeader::write_mda_header`: build the 512-byte header (magic,
version 1, area offset/size, the raw location at byte 40, CRC over bytes
4..512 stored in the first 4 bytes) and write it at the area start. -/
def write_mda_header (area : PvArea) (f : List Nat) (rl : RawLocn) : List Nat :=
  let h1 := bytes_write (List.replicate 512 0) 4 mda_magic
  let h2 := bytes_write h1 20 (le32 1)
  let h3 := bytes_write h2 24 (le64 area.offset)
  let h4 := bytes_write h3 32 (le64 area.size)
  let h5 := bytes_write h4 40 (le64 rl.offset)
  let h6 := bytes_write h5 48 (le64 rl.size)
  let h7 := bytes_write h6 56 (le32 rl.checksum)
  let h8 := bytes_write h7 60 (le32 (if rl.ignored then 1 else 0))
  let h9 := bytes_write h8 0 (le32 (crc32_calc (h8.drop 4)))
  bytes_write f area.offset h9

/-- The per-area loop of `PvHeader::read_metadata`: take the first area
with a present, unignored raw location; read `first_read =
min(size - offset, rl.size)` bytes at `area.offset + rl.offset` into the
front of the buffer and — when that is short — the remaining wrapped
bytes from `area.offset + 512` into `text[rl.size - first_read..]` (the
source's slice; its length is `first_read`); then check the CRC and
parse. -/
def read_metadata_go (f : List Nat) : List PvArea → PRes TextMap
  | [] => .err
  | area :: rest =>
    PRes.bind (read_mda_header area f) (fun orl =>
      match orl with
      | none => read_metadata_go f rest
      | some rl =>
        if rl.ignored then read_metadata_go f rest
        else
          let first_read := min (area.size - rl.offset) rl.size
          let text1 := bytes_write (List.replicate rl.size 0) 0
            (bytes_read f (area.offset + rl.offset) first_read)
          let text2 := if ¬first_read = rl.size then
              bytes_write text1 (rl.size - first_read)
                (bytes_read f (area.offset + 512) first_read)
            else text1
          if ¬rl.checksum = crc32_calc text2 then .err
          else bufToTextmap text2)

/-- `PvHeader::read_metadata`. -/
def read_metadata (f : List Nat) (areas : List PvArea) : PRes TextMap :=
  read_metadata_go f areas

/-- The per-area loop of `PvHeader::write_metadata`: absent raw location
means the initial `{offset: 512, size: 0}` template; then
`start_off = min(512, align_to(rl.offset + rl.size, 512) % area.size)`,
a tail write of `min(tail_space, len)` bytes at `start_off`, a wrapped
write of the remainder at byte 512 of the area, and a fresh header whose
raw location records `start_off`, the length and the text CRC. -/
def write_metadata_go (text : List Nat) : List PvArea → List Nat → PRes (List Nat)
  | [], f => .ok f
  | area :: rest, f =>
    PRes.bind (read_mda_header area f) (fun orl =>
      let rl : RawLocn := match orl with
        | none => ⟨512, 0, 0, false⟩
        | some x => x
      if rl.ignored then write_metadata_go text rest f
      else
        let start_off := min 512 (align_to (rl.offset + rl.size) 512 % area.size)
        let tail_space := area.size - start_off
        if ¬(start_off % 512 = 0 ∧ tail_space % 512 = 0) then .crash
        else
          let written := if ¬tail_space = 0 then min tail_space text.length else 0
          let f1 := if ¬tail_space = 0 then
              bytes_write f (area.offset + start_off) (text.take written)
            else f
          let f2 := if ¬written = text.length then
              bytes_write f1 (area.offset + 512) (text.drop written)
            else f1
          write_metadata_go text rest
            (write_mda_header area f2 ⟨start_off, text.length, crc32_calc text, rl.ignored⟩))

/-- `PvHeader::write_metadata`: serialize the map, append the trailing
NUL, and run the per-area loop. -/
def write_metadata (f : List Nat) (map : TextMap) (areas : List PvArea) :
    PRes (List Nat) :=
  PRes.bind (textmapToBuf map) (fun buf => write_metadata_go (buf ++ [0]) areas f)

/-- A device whose single 1024-byte metadata area (offset 0) holds the
freshly initialized header (`PvHeader::initialize` writes an all-zero raw
location). -/
def mda_dev0 : List Nat :=
  write_mda_header ⟨0, 1024⟩ (List.replicate 1024 0) ⟨0, 0, 0, false⟩

/-- A textmap whose serialization (incl. trailing NUL) is 568 bytes —
longer than the 512 bytes between the write start and the area end, so
writing it must wrap. -/
def mda_map : TextMap := [(strB "k", Entry.str (List.replicate 560 97))]

def PRes.getD {α : Type} (x : PRes α) (d : α) : α :=
  match x with
  | .ok a => a
  | _ => d

/-- The device after `write_metadata(mda_map)` on the fresh area. -/
def mda_dev1 : List Nat := (write_metadata mda_dev0 mda_map [⟨0, 1024⟩]).getD []

/-! # Theorems -/

@[simp] theorem PRes.map_ok {α β : Type} (f : α → β) (a : α) :
    PRes.map f (.ok a) = .ok (f a) := rfl

@[simp] theorem PRes.map_err {α β : Type} (f : α → β) : PRes.map f .err = (.err : PRes β) := rfl

@[simp] theorem PRes.map_crash {α β : Type} (f : α → β) :
    PRes.map f .crash = (.crash : PRes β) := rfl

@[simp] theorem PRes.bind_ok {α β : Type} (a : α) (f : α → PRes β) :
    PRes.bind (.ok a) f = f a := rfl

@[simp] theorem PRes.bind_err {α β : Type} (f : α → PRes β) :
    PRes.bind .err f = (.err : PRes β) := rfl

@[simp] theorem PRes.bind_crash {α β : Type} (f : α → PRes β) :
    PRes.bind .crash f = (.crash : PRes β) := rfl

/-- The lexer (`impl Iterator for Lexer`), run to exhaustion: the token
stream `buf_to_textmap` collects.  The `Bool` is the `next_is_ident` flag
(set by `{`, cleared when an `Ident` token is emitted).  A token still
in progress when the input ends is dropped (the source's `while let` loop
simply returns `None`), and `Mode::Number`'s `s.parse().unwrap()` panics
(`crash`) when the slice is `-` alone or exceeds the `i64` range. -/
theorem dwLen {α : Type} (p : α → Bool) (l : List α) : (l.dropWhile p).length ≤ l.length := by
  induction l with
  | nil => simp
  | cons a t ih => by_cases h : p a <;> simp [List.dropWhile_cons, h] <;> omega

theorem dwLenEq {α : Type} {p : α → Bool} {l r : List α} (h : l.dropWhile p = r) :
    r.length ≤ l.length := h ▸ dwLen p l

/-- `lexBody` only calls its continuation on suffixes no longer than
`rest`, so continuations that agree there are interchangeable. -/
theorem lexBody_congr {k1 k2 : List Nat → Bool → PRes (List Tok)} (c : Nat)
    (rest : List Nat) (flag : Bool)
    (h : ∀ (l : List Nat) (fl : Bool), l.length ≤ rest.length → k1 l fl = k2 l fl) :
    lexBody k1 c rest flag = lexBody k2 c rest flag := by
  simp only [lexBody]
  by_cases h123 : c = 123
  · simp only [if_pos h123]; exact congrArg _ (h rest true le_rfl)
  simp only [if_neg h123]
  by_cases h125 : c = 125
  · simp only [if_pos h125]; exact congrArg _ (h rest flag le_rfl)
  simp only [if_neg h125]
  by_cases h34 : c = 34
  · simp only [if_pos h34]
    cases hdw : rest.dropWhile (fun b => !(b = 34)) with
    | nil => rfl
    | cons x r2 =>
      have hb := dwLenEq hdw
      simp only [List.length_cons] at hb
      show PRes.map (fun z => Tok.str (List.takeWhile (fun b => !(b = 34)) rest) :: z) (k1 r2 flag) =
        PRes.map (fun z => Tok.str (List.takeWhile (fun b => !(b = 34)) rest) :: z) (k2 r2 flag)
      rw [h r2 flag (by omega)]
  simp only [if_neg h34]
  by_cases hid : identStartChar c = true
  · simp only [if_pos hid]
    cases hdw : rest.dropWhile identChar with
    | nil => rfl
    | cons x xs =>
      show PRes.map (fun z => Tok.ident (c :: List.takeWhile identChar rest) :: z) (k1 (x :: xs) false) =
        PRes.map (fun z => Tok.ident (c :: List.takeWhile identChar rest) :: z) (k2 (x :: xs) false)
      rw [h (x :: xs) false (dwLenEq hdw)]
  simp only [if_neg hid]
  by_cases hdg : (isDigit c || c = 45) = true
  · simp only [if_pos hdg]
    by_cases hf : flag = true
    · simp only [if_pos hf]
      cases hdw : rest.dropWhile identChar with
      | nil => rfl
      | cons x xs =>
      show PRes.map (fun z => Tok.ident (c :: List.takeWhile identChar rest) :: z) (k1 (x :: xs) false) =
        PRes.map (fun z => Tok.ident (c :: List.takeWhile identChar rest) :: z) (k2 (x :: xs) false)
      rw [h (x :: xs) false (dwLenEq hdw)]
    · simp only [if_neg hf]
      cases hdw : rest.dropWhile isDigit with
      | nil => rfl
      | cons x xs =>
        cases parseI64 (c :: rest.takeWhile isDigit) with
        | none => rfl
        | some n =>
          show PRes.map (fun z => Tok.num n :: z) (k1 (x :: xs) flag) =
            PRes.map (fun z => Tok.num n :: z) (k2 (x :: xs) flag)
          rw [h (x :: xs) flag (dwLenEq hdw)]
  simp only [if_neg hdg]
  by_cases h35 : c = 35
  · simp only [if_pos h35]
    cases hdw : rest.dropWhile (fun b => !(b = 10)) with
    | nil => rfl
    | cons x xs =>
      show PRes.map (fun z => Tok.comment (35 :: List.takeWhile (fun b => !(b = 10)) rest) :: z) (k1 (x :: xs) flag) =
        PRes.map (fun z => Tok.comment (35 :: List.takeWhile (fun b => !(b = 10)) rest) :: z) (k2 (x :: xs) flag)
      rw [h (x :: xs) flag (dwLenEq hdw)]
  simp only [if_neg h35]
  by_cases h91 : c = 91
  · simp only [if_pos h91]; exact congrArg _ (h rest flag le_rfl)
  simp only [if_neg h91]
  by_cases h93 : c = 93
  · simp only [if_pos h93]; exact congrArg _ (h rest flag le_rfl)
  simp only [if_neg h93]
  by_cases h61 : c = 61
  · simp only [if_pos h61]; exact congrArg _ (h rest flag le_rfl)
  simp only [if_neg h61]
  by_cases h44 : c = 44
  · simp only [if_pos h44]; exact congrArg _ (h rest flag le_rfl)
  simp only [if_neg h44]
  by_cases hws : isWs c = true
  · simp only [if_pos hws]; exact h rest flag le_rfl
  simp only [if_neg hws]
  exact congrArg _ (h rest flag le_rfl)

/-- The fuel is irrelevant as long as it exceeds the input length. -/
theorem lexF_fuel_irrel : ∀ (n : Nat) (buf : List Nat) (f1 f2 : Nat) (flag : Bool),
    buf.length ≤ n → buf.length < f1 → buf.length < f2 →
    lexF f1 buf flag = lexF f2 buf flag := by
  intro n
  induction n with
  | zero =>
    intro buf f1 f2 flag hn h1 h2
    cases f1 with
    | zero => omega
    | succ g1 =>
      cases f2 with
      | zero => omega
      | succ g2 =>
        cases buf with
        | nil => rfl
        | cons c rest => simp at hn
  | succ n ih =>
    intro buf f1 f2 flag hn h1 h2
    cases f1 with
    | zero => omega
    | succ g1 =>
      cases f2 with
      | zero => omega
      | succ g2 =>
        cases buf with
        | nil => rfl
        | cons c rest =>
          have hr : rest.length ≤ n := by simp at hn; omega
          have hg1 : rest.length < g1 := by simp at h1; omega
          have hg2 : rest.length < g2 := by simp at h2; omega
          show lexBody (lexF g1) c rest flag = lexBody (lexF g2) c rest flag
          exact lexBody_congr c rest flag fun l fl hl => ih l g1 g2 fl (by omega) (by omega) (by omega)

theorem fmGo_length_le (b e : Tok) :
    ∀ (ts : List Tok) (cnt : Int) (slc : List Tok), fmGo b e ts cnt = some slc →
      slc.length ≤ ts.length := by
  intro ts
  induction ts with
  | nil => intro cnt slc h; simp [fmGo] at h
  | cons t rest ih =>
    intro cnt slc h
    simp only [fmGo] at h
    split at h
    · match hr : fmGo b e rest (cnt + 1) with
      | none => rw [hr] at h; simp at h
      | some s' =>
        rw [hr] at h
        simp only [Option.map_some'] at h
        cases h
        simpa using ih _ s' hr
    · split at h
      · split at h
        · cases h; simp
        · match hr : fmGo b e rest (cnt - 1) with
          | none => rw [hr] at h; simp at h
          | some s' =>
            rw [hr] at h
            simp only [Option.map_some'] at h
            cases h
            simpa using ih _ s' hr
      · match hr : fmGo b e rest cnt with
        | none => rw [hr] at h; simp at h
        | some s' =>
          rw [hr] at h
          simp only [Option.map_some'] at h
          cases h
          simpa using ih _ s' hr

theorem findMatching_length_le {ts slc : List Tok} {b e : Tok}
    (h : findMatching ts b e = some slc) : slc.length ≤ ts.length :=
  fmGo_length_le b e ts 0 slc h

theorem gtBody_nil {gt gl acc} : gtBody gt gl [] acc = .crash := rfl

theorem gtBody_close {gt gl r acc} : gtBody gt gl (Tok.curlyClose :: r) acc = .ok acc := rfl

theorem gtBody_comment {gt gl s rest acc} :
    gtBody gt gl (Tok.comment s :: rest) acc = gl rest acc := rfl

theorem gtBody_num {gt gl k n r3 acc} :
    gtBody gt gl (Tok.ident k :: Tok.eqTok :: Tok.num n :: r3) acc =
      gl r3 (alInsert k (Entry.num n) acc) := rfl

theorem gtBody_str {gt gl k s r3 acc} :
    gtBody gt gl (Tok.ident k :: Tok.eqTok :: Tok.str s :: r3) acc =
      gl r3 (alInsert k (Entry.str s) acc) := rfl

theorem gtBody_list {gt gl k rtail acc} :
    gtBody gt gl (Tok.ident k :: Tok.eqTok :: Tok.bracketOpen :: rtail) acc =
      (match findMatching (Tok.bracketOpen :: rtail) Tok.bracketOpen Tok.bracketClose with
      | none => .err
      | some slc =>
        (getList slc).bind fun l =>
          gl ((Tok.bracketOpen :: rtail).drop slc.length) (alInsert k (Entry.list l) acc)) := rfl

theorem gtBody_map {gt gl k rtail acc} :
    gtBody gt gl (Tok.ident k :: Tok.curlyOpen :: rtail) acc =
      (match findMatching (Tok.curlyOpen :: rtail) Tok.curlyOpen Tok.curlyClose with
      | none => .err
      | some slc =>
        (gt slc).bind fun tm =>
          gl ((Tok.curlyOpen :: rtail).drop slc.length) (alInsert k (Entry.map tm) acc)) := rfl

/-- `gtBody` calls `gt` and `gl` only on strictly shorter token slices. -/
theorem gtBody_congr {gt1 gt2 : List Tok → PRes TextMap}
    {gl1 gl2 : List Tok → TextMap → PRes TextMap} (ts : List Tok) (acc : TextMap)
    (hgt : ∀ l, l.length < ts.length → gt1 l = gt2 l)
    (hgl : ∀ l a, l.length < ts.length → gl1 l a = gl2 l a) :
    gtBody gt1 gl1 ts acc = gtBody gt2 gl2 ts acc := by
  match ts with
  | [] => rfl
  | Tok.curlyClose :: _ => rfl
  | Tok.comment s :: rest => exact hgl rest acc (by simp)
  | [Tok.ident k] => rfl
  | Tok.ident k :: Tok.eqTok :: [] => rfl
  | Tok.ident k :: Tok.eqTok :: Tok.num n :: r3 =>
    rw [gtBody_num, gtBody_num]; exact hgl r3 _ (by simp; omega)
  | Tok.ident k :: Tok.eqTok :: Tok.str s :: r3 =>
    rw [gtBody_str, gtBody_str]; exact hgl r3 _ (by simp; omega)
  | Tok.ident k :: Tok.eqTok :: Tok.bracketOpen :: rtail =>
    rw [gtBody_list, gtBody_list]
    cases hm : findMatching (Tok.bracketOpen :: rtail) Tok.bracketOpen Tok.bracketClose with
    | none => rfl
    | some slc =>
      have hb := findMatching_length_le hm
      simp only []
      congr 1
      funext l
      exact hgl _ _ (by simp only [List.length_cons, List.length_drop] at hb ⊢; omega)
  | Tok.ident k :: Tok.curlyOpen :: rtail =>
    rw [gtBody_map, gtBody_map]
    cases hm : findMatching (Tok.curlyOpen :: rtail) Tok.curlyOpen Tok.curlyClose with
    | none => rfl
    | some slc =>
      have hb := findMatching_length_le hm
      simp only []
      rw [hgt slc (by simp only [List.length_cons] at hb ⊢; omega)]
      congr 1
      funext tm
      exact hgl _ _ (by simp only [List.length_cons, List.length_drop] at hb ⊢; omega)
  | Tok.ident k :: Tok.eqTok :: Tok.curlyOpen :: r => rfl
  | Tok.ident k :: Tok.eqTok :: Tok.curlyClose :: r => rfl
  | Tok.ident k :: Tok.eqTok :: Tok.bracketClose :: r => rfl
  | Tok.ident k :: Tok.eqTok :: Tok.eqTok :: r => rfl
  | Tok.ident k :: Tok.eqTok :: Tok.comma :: r => rfl
  | Tok.ident k :: Tok.eqTok :: Tok.ident s :: r => rfl
  | Tok.ident k :: Tok.eqTok :: Tok.comment s :: r => rfl
  | Tok.ident k :: Tok.eqTok :: Tok.invalid s :: r => rfl
  | Tok.ident k :: Tok.curlyClose :: r => rfl
  | Tok.ident k :: Tok.bracketOpen :: r => rfl
  | Tok.ident k :: Tok.bracketClose :: r => rfl
  | Tok.ident k :: Tok.num n :: r => rfl
  | Tok.ident k :: Tok.str s :: r => rfl
  | Tok.ident k :: Tok.comma :: r => rfl
  | Tok.ident k :: Tok.ident s :: r => rfl
  | Tok.ident k :: Tok.comment s :: r => rfl
  | Tok.ident k :: Tok.invalid s :: r => rfl
  | Tok.curlyOpen :: r => rfl
  | Tok.bracketOpen :: r => rfl
  | Tok.bracketClose :: r => rfl
  | Tok.eqTok :: r => rfl
  | Tok.comma :: r => rfl
  | Tok.num n :: r => rfl
  | Tok.str s :: r => rfl
  | Tok.invalid s :: r => rfl

/-- Fuel irrelevance for the parser: any fuel above the slice length
computes the same result. -/
theorem gtF_fuel_irrel : ∀ (n : Nat) (ts : List Tok) (f1 f2 : Nat),
    ts.length ≤ n → ts.length < f1 → ts.length < f2 →
    getTextmapF f1 ts = getTextmapF f2 ts ∧
      ∀ acc, gtLoopF f1 ts acc = gtLoopF f2 ts acc := by
  intro n
  induction n with
  | zero =>
    intro ts f1 f2 hn h1 h2
    cases f1 with
    | zero => omega
    | succ g1 =>
      cases f2 with
      | zero => omega
      | succ g2 =>
        cases ts with
        | nil => exact ⟨rfl, fun acc => rfl⟩
        | cons t rest => simp at hn
  | succ n ih =>
    intro ts f1 f2 hn h1 h2
    cases f1 with
    | zero => omega
    | succ g1 =>
      cases f2 with
      | zero => omega
      | succ g2 =>
        constructor
        · cases ts with
          | nil => rfl
          | cons t rest =>
            simp only [getTextmapF]
            by_cases ht : t = Tok.curlyOpen
            · simp only [if_pos ht]
              cases hlast : (t :: rest).getLast? with
              | none => rfl
              | some tl =>
                cases tl with
                | curlyClose =>
                  exact (ih rest g1 g2 (by simp at hn; omega) (by simp at h1; omega)
                    (by simp at h2; omega)).2 []
                | curlyOpen => rfl
                | bracketOpen => rfl
                | bracketClose => rfl
                | eqTok => rfl
                | comma => rfl
                | str s => rfl
                | ident s => rfl
                | num m => rfl
                | comment s => rfl
                | invalid c => rfl
            · simp only [if_neg ht]
        · intro acc
          show gtBody (getTextmapF g1) (gtLoopF g1) ts acc =
            gtBody (getTextmapF g2) (gtLoopF g2) ts acc
          apply gtBody_congr
          · intro l hl
            exact (ih l g1 g2 (by omega) (by omega) (by omega)).1
          · intro l a hl
            exact (ih l g1 g2 (by omega) (by omega) (by omega)).2 a

/-! ### Induction principle for the nested `Entry`/`TextMap` types -/
theorem entry_textmap_induction
    (P : TextMap → Prop) (Q : Entry → Prop)
    (hnil : P [])
    (hcons : ∀ k v t, Q v → P t → P ((k, v) :: t))
    (hnum : ∀ n, Q (Entry.num n))
    (hstr : ∀ s, Q (Entry.str s))
    (hlist : ∀ l, (∀ e ∈ l, Q e) → Q (Entry.list l))
    (hmap : ∀ m, P m → Q (Entry.map m)) :
    (∀ m, P m) ∧ (∀ e, Q e) := by
  have key : ∀ n : Nat, (∀ m : TextMap, sizeOf m ≤ n → P m) ∧
      (∀ e : Entry, sizeOf e ≤ n → Q e) := by
    intro n
    induction n with
    | zero =>
      constructor
      · intro m h; cases m <;> simp at h
      · intro e h; cases e <;> simp at h
    | succ n ih =>
      constructor
      · intro m h
        match m with
        | [] => exact hnil
        | (k, v) :: t =>
          apply hcons
          · apply ih.2; simp at h ⊢; omega
          · apply ih.1; simp at h ⊢; omega
      · intro e h
        match e with
        | .num n' => exact hnum n'
        | .str s => exact hstr s
        | .list l =>
          apply hlist
          intro x hx
          apply ih.2
          have := List.sizeOf_lt_of_mem hx
          simp at h; omega
        | .map m' =>
          apply hmap; apply ih.1; simp at h; omega
  exact ⟨fun m => (key (sizeOf m)).1 m le_rfl, fun e => (key (sizeOf e)).2 e le_rfl⟩

theorem elemsBytes_ok : ∀ l : List Entry, l.all isScalarCtor = true →
    elemsBytes l = .ok (l.map specScalar) := by
  intro l
  induction l with
  | nil => intro _; rfl
  | cons e t ih =>
    intro h
    simp only [List.all_cons, Bool.and_eq_true] at h
    cases e with
    | num n => simp [elemsBytes, elemBytes, ih h.2, specScalar]
    | str s => simp [elemsBytes, elemBytes, ih h.2, specScalar]
    | list l' => simp [isScalarCtor] at h
    | map m' => simp [isScalarCtor] at h

theorem joinComma_intercalate : ∀ zs : List (List Nat),
    joinComma zs = List.intercalate (strB ", ") zs := by
  intro zs
  induction zs with
  | nil => rfl
  | cons x t ih =>
    cases t with
    | nil => simp [joinComma, List.intercalate, List.intersperse]
    | cons y t2 =>
      simp only [joinComma, ih]
      simp [List.intercalate, List.intersperse]

theorem specPad_zero (ind : Nat) : specPad 0 ind = [] := by
  simp [specPad]

/-- `textmap_to_buf` is the spec's serializer with indentation width 0. -/
theorem textmapToBuf_spec :
    ∀ m : TextMap, listsScalar m = true → ∀ ind, textmapToBuf m = .ok (specSer 0 ind m) := by
  have key := entry_textmap_induction
    (fun m => listsScalar m = true → ∀ ind, textmapToBuf m = .ok (specSer 0 ind m))
    (fun e => listsScalarE e = true → ∀ k ind, entryLine k e = .ok (specEntry 0 ind k e))
    (by intro _ _; rfl)
    (by
      intro k v t hv ht h ind
      have hpair : listsScalarE v = true ∧ listsScalar t = true := by
        simp only [listsScalar, listsScalarT, Bool.and_eq_true] at h ⊢
        exact h
      simp only [textmapToBuf, hv hpair.1 k ind, ht hpair.2 ind, PRes.bind_ok, PRes.map_ok,
        specSer])
    (by intro n _ k ind; simp [entryLine, specEntry, specScalar, specPad_zero])
    (by
      intro s _ k ind
      simp only [entryLine, specEntry, specScalar, specPad_zero]
      simp [strB, List.append_assoc])
    (by
      intro l _ h k ind
      simp only [listsScalarE] at h
      simp only [entryLine, elemsBytes_ok l h, PRes.map_ok, specEntry, specPad_zero,
        joinComma_intercalate]
      try simp)
    (by
      intro m hm h k ind
      have hm' : listsScalar m = true := h
      simp only [entryLine, hm hm' (ind + 1), PRes.map_ok, specEntry, specPad_zero]
      simp)
  intro m h ind
  exact key.1 m h ind

/-- C8 counterexample: the claim says `textmap_to_buf` emits two-space
indentation per nesting level; on the map `{a: {b: 5}}` the code's output
(`a {\nb = 5\n}\n`, no indentation) differs from the two-space-indented
rendering of the spec's rules. -/
theorem C8_counterexample_indentation :
    textmapToBuf [(strB "a", Entry.map [(strB "b", Entry.num 5)])] ≠
      PRes.ok (specSer 2 0 [(strB "a", Entry.map [(strB "b", Entry.num 5)])]) := by
  decide

/-- C8 (amended): for every `TextMap` whose lists hold only scalars (the
source panics otherwise), `textmap_to_buf` emits each scalar as
`key = value\n`, lists on one line as `[a, b, c]`, sections as
`key {\n ... }\n` and strings double-quoted verbatim — with *no*
indentation at any nesting level (indentation width 0, not 2). -/
theorem C8_serializer_flat_format (m : TextMap) (h : listsScalar m = true) :
    textmapToBuf m = PRes.ok (specSer 0 0 m) :=
  textmapToBuf_spec m h 0

/-- Witness for C8 at the concrete map `{a: {b: 5}, c: [1, "x"]}`. -/
theorem C8_serializer_flat_format_witness :
    listsScalar [(strB "a", Entry.map [(strB "b", Entry.num 5)]),
        (strB "c", Entry.list [Entry.num 1, Entry.str (strB "x")])] = true ∧
      textmapToBuf [(strB "a", Entry.map [(strB "b", Entry.num 5)]),
        (strB "c", Entry.list [Entry.num 1, Entry.str (strB "x")])] =
        PRes.ok (specSer 0 0 [(strB "a", Entry.map [(strB "b", Entry.num 5)]),
          (strB "c", Entry.list [Entry.num 1, Entry.str (strB "x")])]) :=
  ⟨by decide, C8_serializer_flat_format _ (by decide)⟩

/-- C9: the claim says `buf_to_textmap` returns a `Result` and never
panics on any input; in fact the lexer's `s.parse().unwrap()` panics on a
number literal exceeding the `i64` range (`99999999999999999999 `), and
`get_textmap` indexes out of bounds (a panic) on the unterminated section
`a {`. -/
theorem C9_parser_panics_on_malformed_input :
    bufToTextmap (strB "99999999999999999999 ") = PRes.crash ∧
      bufToTextmap (strB "a \x7b") = PRes.crash := by
  decide

theorem natDecF_spec : ∀ (fuel n : Nat), n < fuel →
    natDecF fuel n ≠ [] ∧ (∀ b ∈ natDecF fuel n, isDigit b = true) ∧
      (natDecF fuel n).foldl (fun a c => a * 10 + (c - 48)) 0 = n := by
  intro fuel
  induction fuel with
  | zero => intro n h; omega
  | succ f ih =>
    intro n h
    by_cases h10 : n < 10
    · refine ⟨by simp [natDecF, h10], ?_, ?_⟩
      · intro b hb
        simp [natDecF, h10] at hb
        simp [hb, isDigit]
        omega
      · simp only [natDecF, if_pos h10, List.foldl_cons, List.foldl_nil]
        omega
    · have hdiv : n / 10 < f := by omega
      obtain ⟨hne, hdig, hval⟩ := ih (n / 10) hdiv
      refine ⟨by simp [natDecF, h10], ?_, ?_⟩
      · intro b hb
        simp only [natDecF, if_neg h10, List.mem_append, List.mem_singleton] at hb
        rcases hb with hb | hb
        · exact hdig b hb
        · simp [hb, isDigit]; omega
      · simp only [natDecF, if_neg h10, List.foldl_append, hval, List.foldl_cons, List.foldl_nil]
        omega

theorem natDec_digits (n : Nat) : natDec n ≠ [] ∧ (∀ b ∈ natDec n, isDigit b = true) :=
  ⟨(natDecF_spec (n + 1) n (by omega)).1, (natDecF_spec (n + 1) n (by omega)).2.1⟩

theorem digitsVal_natDec (n : Nat) : digitsVal (natDec n) = some n := by
  obtain ⟨hne, hdig, hval⟩ := natDecF_spec (n + 1) n (by omega)
  unfold natDec digitsVal
  rw [if_neg hne, if_pos (List.all_eq_true.mpr hdig)]
  exact congrArg some hval

theorem parseI64_natDec_pos (n : Int) (h0 : 0 ≤ n) (h : n < 2 ^ 63) :
    parseI64 (natDec n.toNat) = some n := by
  obtain ⟨hne, hdig⟩ := natDec_digits n.toNat
  cases hnd : natDec n.toNat with
  | nil => exact absurd hnd hne
  | cons d0 dt =>
    have hd0 : isDigit d0 = true := hdig d0 (by rw [hnd]; simp)
    have h45 : ¬(d0 = 45) := by simp [isDigit] at hd0; omega
    rw [parseI64, if_neg h45, ← hnd, digitsVal_natDec]
    have hv : (n.toNat : Int) = n := Int.toNat_of_nonneg h0
    simp [hv]
    omega

theorem parseI64_natDec_neg (n : Int) (hneg : n < 0) (h : -(2 ^ 63) ≤ n) :
    parseI64 (45 :: natDec n.natAbs) = some n := by
  rw [parseI64, if_pos rfl, digitsVal_natDec]
  have hle : n.natAbs ≤ 2 ^ 63 := by omega
  show (if n.natAbs ≤ 2 ^ 63 then some (-(n.natAbs : Int)) else none) = some n
  rw [if_pos hle]
  exact congrArg some (by omega)

/-! Character-class facts used to pick the lexer branch. -/
theorem identStart_facts {c : Nat} (h : identStartChar c = true) :
    ¬(c = 123) ∧ ¬(c = 125) ∧ ¬(c = 34) := by
  simp [identStartChar, isAlpha] at h
  refine ⟨?_, ?_, ?_⟩ <;> omega

theorem digit_facts {c : Nat} (h : isDigit c = true) :
    ¬(c = 123) ∧ ¬(c = 125) ∧ ¬(c = 34) ∧ identStartChar c = false ∧
      (isDigit c || c = 45) = true := by
  simp only [isDigit, decide_eq_true_eq, Bool.and_eq_true] at h
  refine ⟨by omega, by omega, by omega, ?_, by simp [isDigit]; omega⟩
  simp [identStartChar, isAlpha, isDigit]
  omega

/-- The single unfolding step of the lexer at the `lexAll` level. -/
theorem lexAll_cons (c : Nat) (rest : List Nat) (flag : Bool) :
    lexAll (c :: rest) flag = lexBody (fun l fl => lexAll l fl) c rest flag := by
  show lexBody (lexF (rest.length + 1)) c rest flag = _
  apply lexBody_congr
  intro l fl hl
  exact lexF_fuel_irrel l.length l _ _ fl le_rfl (by omega) (by omega)

theorem lexAll_nil (flag : Bool) : lexAll [] flag = .ok [] := rfl

/-- Lexing a serialized key: identifier characters up to the following
space, emitting one `Ident` token and clearing the flag. -/
theorem lexAll_key {k : List Nat} (hk : keyOK k = true) (r : List Nat) (flag : Bool) :
    lexAll (k ++ 32 :: r) flag =
      PRes.map (Tok.ident k :: ·) (lexAll (32 :: r) false) := by
  cases k with
  | nil => simp [keyOK] at hk
  | cons c tk =>
    simp only [keyOK, Bool.and_eq_true] at hk
    obtain ⟨h1, h2, h3⟩ := identStart_facts hk.1
    have htk : ∀ b ∈ tk, identChar b = true := by
      intro b hb
      exact List.all_eq_true.mp hk.2 b hb
    have hdw : (tk ++ 32 :: r).dropWhile identChar = 32 :: r := by
      rw [List.dropWhile_append_of_pos htk]
      simp [List.dropWhile_cons, identChar, isAlpha, isDigit]
    have htw : (tk ++ 32 :: r).takeWhile identChar = tk := by
      rw [List.takeWhile_append_of_pos htk]
      simp [List.takeWhile_cons, identChar, isAlpha, isDigit]
    rw [List.cons_append, lexAll_cons]
    simp only [lexBody, if_neg h1, if_neg h2, if_neg h3, if_pos hk.1, hdw, htw]

/-- Lexing `=`, `[`, `]`, `,`, `{`, `}`, a space or a newline. -/
theorem lexAll_eq (r : List Nat) (flag : Bool) :
    lexAll (61 :: r) flag = PRes.map (Tok.eqTok :: ·) (lexAll r flag) := by
  rw [lexAll_cons]; rfl

theorem lexAll_bro (r : List Nat) (flag : Bool) :
    lexAll (91 :: r) flag = PRes.map (Tok.bracketOpen :: ·) (lexAll r flag) := by
  rw [lexAll_cons]; rfl

theorem lexAll_brc (r : List Nat) (flag : Bool) :
    lexAll (93 :: r) flag = PRes.map (Tok.bracketClose :: ·) (lexAll r flag) := by
  rw [lexAll_cons]; rfl

theorem lexAll_comma (r : List Nat) (flag : Bool) :
    lexAll (44 :: r) flag = PRes.map (Tok.comma :: ·) (lexAll r flag) := by
  rw [lexAll_cons]; rfl

theorem lexAll_cuo (r : List Nat) (flag : Bool) :
    lexAll (123 :: r) flag = PRes.map (Tok.curlyOpen :: ·) (lexAll r true) := by
  rw [lexAll_cons]; rfl

theorem lexAll_cuc (r : List Nat) (flag : Bool) :
    lexAll (125 :: r) flag = PRes.map (Tok.curlyClose :: ·) (lexAll r flag) := by
  rw [lexAll_cons]; rfl

theorem lexAll_space (r : List Nat) (flag : Bool) :
    lexAll (32 :: r) flag = lexAll r flag := by
  rw [lexAll_cons]; rfl

theorem lexAll_nl (r : List Nat) (flag : Bool) :
    lexAll (10 :: r) flag = lexAll r flag := by
  rw [lexAll_cons]; rfl

/-- Lexing a serialized string literal: everything up to the closing
quote becomes one `String` token. -/
theorem lexAll_string {s : List Nat} (hs : (∀ b ∈ s, ¬(b = 34))) (r : List Nat) (flag : Bool) :
    lexAll (34 :: (s ++ 34 :: r)) flag =
      PRes.map (Tok.str s :: ·) (lexAll r flag) := by
  have hsb : ∀ b ∈ s, (fun b => !(b = 34)) b = true := by
    intro b hb; simpa using hs b hb
  have hdw : (s ++ 34 :: r).dropWhile (fun b => !(b = 34)) = 34 :: r := by
    rw [List.dropWhile_append_of_pos hsb]
    simp [List.dropWhile_cons]
  have htw : (s ++ 34 :: r).takeWhile (fun b => !(b = 34)) = s := by
    rw [List.takeWhile_append_of_pos hsb]
    simp [List.takeWhile_cons]
  rw [lexAll_cons]
  simp only [lexBody, if_pos rfl, hdw, htw]
  rfl

/-- The number branch of `lexBody` for a leading `-`. -/
theorem lexBody_dash (k : List Nat → Bool → PRes (List Tok)) (rest : List Nat) :
    lexBody k 45 rest false =
      (match rest.dropWhile isDigit with
      | [] => .ok []
      | x :: xs =>
        match parseI64 (45 :: rest.takeWhile isDigit) with
        | none => .crash
        | some n => (k (x :: xs) false).map (Tok.num n :: ·)) := rfl

/-- The number branch of `lexBody` for a leading digit. -/
theorem lexBody_digit {c : Nat} (hc : isDigit c = true) (k : List Nat → Bool → PRes (List Tok))
    (rest : List Nat) :
    lexBody k c rest false =
      (match rest.dropWhile isDigit with
      | [] => .ok []
      | x :: xs =>
        match parseI64 (c :: rest.takeWhile isDigit) with
        | none => .crash
        | some n => (k (x :: xs) false).map (Tok.num n :: ·)) := by
  obtain ⟨f1, f2, f3, f4, f5⟩ := digit_facts hc
  have g4 : ¬(identStartChar c = true) := by simp [f4]
  simp only [lexBody, if_neg f1, if_neg f2, if_neg f3, if_neg g4, if_pos f5,
    Bool.false_eq_true, if_false]

/-- Lexing a serialized `i64`: the decimal digits (with optional sign) up
to a non-digit terminator become one `Number` token with the same value. -/
theorem lexAll_number (n : Int) (h1 : -(2 ^ 63) ≤ n) (h2 : n < 2 ^ 63) {term : Nat}
    (ht : isDigit term = false) (r : List Nat) :
    lexAll (intDec n ++ term :: r) false =
      PRes.map (Tok.num n :: ·) (lexAll (term :: r) false) := by
  by_cases hn : n < 0
  · obtain ⟨hne, hdig⟩ := natDec_digits n.natAbs
    have hdw : (natDec n.natAbs ++ term :: r).dropWhile isDigit = term :: r := by
      rw [List.dropWhile_append_of_pos hdig, List.dropWhile_cons]
      simp [ht]
    have htw : (natDec n.natAbs ++ term :: r).takeWhile isDigit = natDec n.natAbs := by
      rw [List.takeWhile_append_of_pos hdig, List.takeWhile_cons]
      simp [ht]
    rw [intDec, if_pos hn, List.cons_append, lexAll_cons, lexBody_dash, hdw, htw,
      parseI64_natDec_neg n hn h1]
  · have h0 : 0 ≤ n := by omega
    obtain ⟨hne, hdig⟩ := natDec_digits n.toNat
    rw [intDec, if_neg hn]
    cases hnd : natDec n.toNat with
    | nil => exact absurd hnd hne
    | cons d0 dt =>
      have hd0 : isDigit d0 = true := hdig d0 (by rw [hnd]; simp)
      have hdt : ∀ b ∈ dt, isDigit b = true := by
        intro b hb; exact hdig b (by rw [hnd]; simp [hb])
      have hdw : (dt ++ term :: r).dropWhile isDigit = term :: r := by
        rw [List.dropWhile_append_of_pos hdt, List.dropWhile_cons]
        simp [ht]
      have htw : (dt ++ term :: r).takeWhile isDigit = dt := by
        rw [List.takeWhile_append_of_pos hdt, List.takeWhile_cons]
        simp [ht]
      have hp : parseI64 (d0 :: dt) = some n := by
        rw [← hnd]; exact parseI64_natDec_pos n h0 h2
      rw [List.cons_append, lexAll_cons, lexBody_digit hd0, hdw, htw, hp]

@[simp] theorem strB_sp_eq_sp : strB " = " = [32, 61, 32] := rfl

@[simp] theorem strB_nl : strB "\n" = [10] := rfl

@[simp] theorem strB_sp_eq_q : strB " = \"" = [32, 61, 32, 34] := rfl

@[simp] theorem strB_q_nl : strB "\"\n" = [34, 10] := rfl

@[simp] theorem strB_sp_eq_bro : strB " = [" = [32, 61, 32, 91] := rfl

@[simp] theorem strB_brc_nl : strB "]\n" = [93, 10] := rfl

@[simp] theorem strB_sp_cuo_nl : strB " \x7b\n" = [32, 123, 10] := rfl

@[simp] theorem strB_cuc_nl : strB "\x7d\n" = [125, 10] := rfl

@[simp] theorem strB_comma_sp : strB ", " = [44, 32] := rfl

theorem PRes.map_map {α β γ : Type} (f : β → γ) (g : α → β) (x : PRes α) :
    PRes.map f (PRes.map g x) = PRes.map (fun a => f (g a)) x := by
  cases x <;> rfl

theorem flagInv_nil : FlagInv [] := fun _ _ => rfl

theorem intercalate_nil (sep : List Nat) : List.intercalate sep ([] : List (List Nat)) = [] := by
  simp [List.intercalate]

theorem intercalate_single (sep x : List Nat) : List.intercalate sep [x] = x := by
  simp [List.intercalate]

theorem intercalate_cons2 (sep x y : List Nat) (t : List (List Nat)) :
    List.intercalate sep (x :: y :: t) = x ++ sep ++ List.intercalate sep (y :: t) := by
  simp [List.intercalate, List.intersperse]

/-- Lexing one serialized scalar list element followed by a non-digit
terminator byte. -/
theorem lexAll_scalar_elem (e : Entry) (he : scalarOK e = true) {term : Nat}
    (ht : isDigit term = false) (r : List Nat) :
    lexAll (specScalar e ++ term :: r) false =
      PRes.map (scalarTok e :: ·) (lexAll (term :: r) false) := by
  cases e with
  | num n =>
    simp only [scalarOK, Bool.and_eq_true, decide_eq_true_eq] at he
    exact lexAll_number n he.1 he.2 ht r
  | str s =>
    simp only [scalarOK] at he
    have hs : ∀ b ∈ s, ¬(b = 34) := by
      intro b hb
      have := List.all_eq_true.mp he b hb
      simpa using this
    show lexAll (34 :: (s ++ [34]) ++ term :: r) false = _
    rw [List.cons_append, List.append_assoc, List.singleton_append, lexAll_string hs]
    rfl
  | list l => simp [scalarOK] at he
  | map m => simp [scalarOK] at he

/-- Lexing a serialized list body plus its closing bracket. -/
theorem lexAll_list_body : ∀ (l : List Entry), (∀ e ∈ l, scalarOK e = true) → ∀ (r : List Nat),
    lexAll (List.intercalate (strB ", ") (l.map specScalar) ++ 93 :: r) false =
      PRes.map (fun ts => listToks l ++ Tok.bracketClose :: ts) (lexAll r false) := by
  intro l
  induction l with
  | nil =>
    intro _ r
    simp only [List.map_nil, intercalate_nil, List.nil_append, lexAll_brc, listToks]
  | cons e t ih =>
    intro hl r
    cases t with
    | nil =>
      simp only [List.map_cons, List.map_nil, intercalate_single]
      rw [lexAll_scalar_elem e (hl e (by simp)) (by decide) r, lexAll_brc, PRes.map_map]
      rfl
    | cons e2 t2 =>
      have hl2 : ∀ x ∈ e2 :: t2, scalarOK x = true := fun x hx => hl x (by simp [hx])
      have main : lexAll (specScalar e ++ 44 :: (32 ::
          (List.intercalate (strB ", ") ((e2 :: t2).map specScalar) ++ 93 :: r))) false =
          PRes.map (fun ts => listToks (e :: e2 :: t2) ++ Tok.bracketClose :: ts)
            (lexAll r false) := by
        rw [lexAll_scalar_elem e (hl e (by simp)) (by decide), lexAll_comma, lexAll_space,
          ih hl2 r, PRes.map_map, PRes.map_map]
        rfl
      have heq : List.intercalate (strB ", ") ((e :: e2 :: t2).map specScalar) ++ 93 :: r =
          specScalar e ++ 44 :: (32 ::
            (List.intercalate (strB ", ") ((e2 :: t2).map specScalar) ++ 93 :: r)) := by
        simp only [List.map_cons, intercalate_cons2, strB_comma_sp]
        simp
      rw [heq, main]

/-- Lexing the serialization of a well-formed map: the `ser → lex`
direction of the round trip.  `toksT m` comes out and the continuation is
lexed from a `false` flag (the flag value is irrelevant both for the map's
own bytes and, via `FlagInv`, for the continuation). -/
theorem lexAll_ser :
    (∀ m : TextMap, wfT m = true → ∀ ind r flag, FlagInv r →
      lexAll (specSer 0 ind m ++ r) flag = PRes.map (toksT m ++ ·) (lexAll r false)) ∧
    (∀ e : Entry, ∀ k, keyOK k = true → wfE e = true → ∀ ind r flag, FlagInv r →
      lexAll (specEntry 0 ind k e ++ r) flag = PRes.map (toksE k e ++ ·) (lexAll r false)) := by
  have key := entry_textmap_induction
    (fun m => wfT m = true → ∀ ind r flag, FlagInv r →
      lexAll (specSer 0 ind m ++ r) flag = PRes.map (toksT m ++ ·) (lexAll r false))
    (fun e => ∀ k, keyOK k = true → wfE e = true → ∀ ind r flag, FlagInv r →
      lexAll (specEntry 0 ind k e ++ r) flag = PRes.map (toksE k e ++ ·) (lexAll r false))
    ?_ ?_ ?_ ?_ ?_ ?_
  · exact ⟨fun m => key.1 m, fun e => key.2 e⟩
  · intro _ ind r flag hr
    simp only [specSer, List.nil_append, toksT]
    rw [hr flag false]
    generalize lexAll r false = w
    cases w <;> simp
  · intro k v t hv ht hwf ind r flag hr
    simp only [wfT, Bool.and_eq_true] at hwf
    obtain ⟨⟨hwk, hwv⟩, hwt⟩ := hwf
    have hBinv : FlagInv (specSer 0 ind t ++ r) := by
      intro f1 f2
      rw [ht hwt ind r f1 hr, ht hwt ind r f2 hr]
    simp only [specSer, List.append_assoc]
    rw [hv k hwk hwv ind (specSer 0 ind t ++ r) flag hBinv,
      ht hwt ind r false hr, PRes.map_map]
    simp only [toksT]
    generalize lexAll r false = w
    cases w <;> simp
  · intro n k hk hwf ind r flag hr
    simp only [wfE, Bool.and_eq_true, decide_eq_true_eq] at hwf
    have hb : specEntry 0 ind k (Entry.num n) ++ r =
        k ++ 32 :: (61 :: 32 :: (intDec n ++ 10 :: r)) := by
      simp [specEntry, specPad_zero, specScalar]
    rw [hb, lexAll_key hk, lexAll_space, lexAll_eq, lexAll_space,
      lexAll_number n hwf.1 hwf.2 (by decide) r, lexAll_nl, PRes.map_map, PRes.map_map]
    simp only [toksE]
    generalize lexAll r false = w
    cases w <;> simp
  · intro s k hk hwf ind r flag hr
    simp only [wfE] at hwf
    have hs : ∀ b ∈ s, ¬(b = 34) := by
      intro b hb
      have := List.all_eq_true.mp hwf b hb
      simpa using this
    have hb : specEntry 0 ind k (Entry.str s) ++ r =
        k ++ 32 :: (61 :: 32 :: (34 :: (s ++ 34 :: (10 :: r)))) := by
      simp [specEntry, specPad_zero, specScalar]
    rw [hb, lexAll_key hk, lexAll_space, lexAll_eq, lexAll_space, lexAll_string hs,
      lexAll_nl, PRes.map_map, PRes.map_map]
    simp only [toksE]
    generalize lexAll r false = w
    cases w <;> simp
  · intro l hl k hk hwf ind r flag hr
    simp only [wfE] at hwf
    have hsc : ∀ e ∈ l, scalarOK e = true := List.all_eq_true.mp hwf
    have hb : specEntry 0 ind k (Entry.list l) ++ r =
        k ++ 32 :: (61 :: 32 :: (91 ::
          (List.intercalate (strB ", ") (l.map specScalar) ++ 93 :: (10 :: r)))) := by
      simp [specEntry, specPad_zero]
    rw [hb, lexAll_key hk, lexAll_space, lexAll_eq, lexAll_space, lexAll_bro,
      lexAll_list_body l hsc (10 :: r), lexAll_nl, PRes.map_map, PRes.map_map,
      PRes.map_map]
    simp only [toksE]
    generalize lexAll r false = w
    cases w <;> simp
  · intro m hm k hk hwf ind r flag hr
    simp only [wfE, Bool.and_eq_true] at hwf
    have hrr : FlagInv (125 :: (10 :: r)) := by
      intro f1 f2
      rw [lexAll_cuc, lexAll_nl, lexAll_cuc, lexAll_nl, hr f1 f2]
    have hb : specEntry 0 ind k (Entry.map m) ++ r =
        k ++ 32 :: (123 :: (10 :: (specSer 0 (ind + 1) m ++ 125 :: (10 :: r)))) := by
      simp [specEntry, specPad_zero]
    rw [hb, lexAll_key hk, lexAll_space, lexAll_cuo, lexAll_nl,
      hm hwf.2 (ind + 1) (125 :: (10 :: r)) true hrr, lexAll_cuc, lexAll_nl,
      PRes.map_map, PRes.map_map, PRes.map_map]
    simp only [toksE]
    generalize lexAll r false = w
    cases w <;> simp

theorem dsumBE_nil (b e : Tok) : dsumBE b e [] = 0 := rfl

theorem dsumBE_cons (b e t : Tok) (ts : List Tok) :
    dsumBE b e (t :: ts) = tdel b e t + dsumBE b e ts := by
  simp [dsumBE]

theorem dsumBE_append (b e : Tok) (a c : List Tok) :
    dsumBE b e (a ++ c) = dsumBE b e a + dsumBE b e c := by
  simp [dsumBE]

theorem preOK_append (b e : Tok) : ∀ (a c : List Tok) (cnt : Int),
    preOK b e cnt a → preOK b e (cnt + dsumBE b e a) c → preOK b e cnt (a ++ c) := by
  intro a
  induction a with
  | nil =>
    intro c cnt _ h2
    simpa [dsumBE_nil] using h2
  | cons t rest ih =>
    intro c cnt h1 h2
    obtain ⟨hh, ht⟩ := h1
    refine ⟨hh, ih c (cnt + tdel b e t) ht ?_⟩
    rwa [show cnt + tdel b e t + dsumBE b e rest = cnt + dsumBE b e (t :: rest) by
      rw [dsumBE_cons]; ring]

/-- Scanning a stream `ts ++ e :: junk` where the count starts at `cnt`,
stays positive through `ts` and ends at exactly 1: `find_matching_token`'s
loop stops precisely at the final `e`. -/
theorem fmGo_run (b e : Tok) (hne : ¬(e = b)) : ∀ (ts junk : List Tok) (cnt : Int),
    preOK b e cnt ts → cnt + dsumBE b e ts = 1 →
    fmGo b e (ts ++ e :: junk) cnt = some (ts ++ [e]) := by
  intro ts
  induction ts with
  | nil =>
    intro junk cnt _ hsum
    rw [dsumBE_nil] at hsum
    have hz : cnt - 1 = 0 := by omega
    simp only [List.nil_append, fmGo, if_neg hne, if_pos rfl, if_pos hz]
    simp
  | cons t rest ih =>
    intro junk cnt hpre hsum
    obtain ⟨h1, h2⟩ := hpre
    rw [dsumBE_cons] at hsum
    rw [List.cons_append]
    by_cases htb : t = b
    · have hd : tdel b e t = 1 := by simp [tdel, htb]
      rw [hd] at h1 h2 hsum
      simp only [fmGo, if_pos htb]
      rw [ih junk (cnt + 1) h2 (by omega)]
      rfl
    · by_cases hte : t = e
      · have hd : tdel b e t = -1 := by
          rw [tdel, if_neg htb, if_pos hte]
        rw [hd] at h1 h2 hsum
        have hnz : ¬(cnt - 1 = 0) := by omega
        have h2' : preOK b e (cnt - 1) rest := by
          rwa [show cnt - 1 = cnt + -1 by ring]
        simp only [fmGo]
        rw [if_neg htb, if_pos hte, if_neg hnz]
        rw [ih junk (cnt - 1) h2' (by omega)]
        rfl
      · have hd : tdel b e t = 0 := by simp [tdel, htb, hte]
        rw [hd] at h2 hsum
        rw [add_zero] at h2
        simp only [fmGo, if_neg htb, if_neg hte]
        rw [ih junk cnt h2 (by omega)]
        rfl

/-- `listToks` has zero delta and keeps any positive count positive for
both delimiter pairs (its tokens are scalars and commas). -/
theorem listToks_flat (b e : Tok) (hb1 : ∀ n, ¬(Tok.num n = b)) (hb2 : ∀ s, ¬(Tok.str s = b))
    (hb3 : ∀ c, ¬(Tok.invalid c = b)) (hb4 : ¬(Tok.comma = b))
    (he1 : ∀ n, ¬(Tok.num n = e)) (he2 : ∀ s, ¬(Tok.str s = e))
    (he3 : ∀ c, ¬(Tok.invalid c = e)) (he4 : ¬(Tok.comma = e)) :
    ∀ l : List Entry, dsumBE b e (listToks l) = 0 ∧
      ∀ c : Int, 1 ≤ c → preOK b e c (listToks l) := by
  have hst : ∀ x : Entry, tdel b e (scalarTok x) = 0 := by
    intro x
    cases x with
    | num n => simp [scalarTok, tdel, hb1, he1]
    | str s => simp [scalarTok, tdel, hb2, he2]
    | list l => simp [scalarTok, tdel, hb3, he3]
    | map m => simp [scalarTok, tdel, hb3, he3]
  have hcm : tdel b e Tok.comma = 0 := by simp [tdel, hb4, he4]
  intro l
  induction l with
  | nil => exact ⟨rfl, fun c _ => trivial⟩
  | cons x t ih =>
    cases t with
    | nil =>
      refine ⟨by simp [listToks, dsumBE_cons, hst, dsumBE_nil], ?_⟩
      intro c hc
      exact ⟨by rw [hst]; omega, trivial⟩
    | cons y t2 =>
      refine ⟨?_, ?_⟩
      · show dsumBE b e (scalarTok x :: Tok.comma :: listToks (y :: t2)) = 0
        rw [dsumBE_cons, dsumBE_cons, hst, hcm, ih.1]
        ring
      · intro c hc
        show preOK b e c (scalarTok x :: Tok.comma :: listToks (y :: t2))
        refine ⟨?_, ?_, ?_⟩
        · rw [hst]; omega
        · rw [hst, hcm]; omega
        · have h := ih.2 c hc
          rwa [show c = c + tdel b e (scalarTok x) + tdel b e Tok.comma by
            rw [hst, hcm]; ring] at h

theorem tdel_b (b e : Tok) : tdel b e b = 1 := by simp [tdel]

theorem tdel_e (b e : Tok) (h : ¬e = b) : tdel b e e = -1 := by simp [tdel, h]

theorem tdel_zero {b e t : Tok} (h1 : ¬t = b) (h2 : ¬t = e) : tdel b e t = 0 := by
  simp [tdel, h1, h2]

theorem preOK_count {b e : Tok} {c c' : Int} (h : c' = c) {ts : List Tok}
    (hp : preOK b e c ts) : preOK b e c' ts := by rwa [h]

/-- Curly-brace balance of serialized token streams: the total delta is 0
and any positive running count stays positive. -/
theorem toks_balance :
    (∀ m : TextMap, dsumBE Tok.curlyOpen Tok.curlyClose (toksT m) = 0 ∧
      ∀ c : Int, 1 ≤ c → preOK Tok.curlyOpen Tok.curlyClose c (toksT m)) ∧
    (∀ e : Entry, ∀ k, dsumBE Tok.curlyOpen Tok.curlyClose (toksE k e) = 0 ∧
      ∀ c : Int, 1 ≤ c → preOK Tok.curlyOpen Tok.curlyClose c (toksE k e)) := by
  have hlf := listToks_flat Tok.curlyOpen Tok.curlyClose
    (fun n => by simp) (fun s => by simp) (fun c => by simp) (by simp)
    (fun n => by simp) (fun s => by simp) (fun c => by simp) (by simp)
  exact entry_textmap_induction
    (fun m => dsumBE Tok.curlyOpen Tok.curlyClose (toksT m) = 0 ∧
      ∀ c : Int, 1 ≤ c → preOK Tok.curlyOpen Tok.curlyClose c (toksT m))
    (fun e => ∀ k, dsumBE Tok.curlyOpen Tok.curlyClose (toksE k e) = 0 ∧
      ∀ c : Int, 1 ≤ c → preOK Tok.curlyOpen Tok.curlyClose c (toksE k e))
    ⟨rfl, fun _ _ => trivial⟩
    (by
      intro k v t hv ht
      constructor
      · show dsumBE _ _ (toksE k v ++ toksT t) = 0
        rw [dsumBE_append, (hv k).1, ht.1]
        ring
      · intro c hc
        show preOK _ _ c (toksE k v ++ toksT t)
        refine preOK_append _ _ _ _ _ ((hv k).2 c hc) ?_
        exact preOK_count (by rw [(hv k).1]; ring) (ht.2 c hc))
    (by
      intro n k
      constructor
      · simp [toksE, dsumBE, tdel]
      · intro c hc
        refine ⟨?_, ?_, ?_, trivial⟩ <;> simp [tdel] <;> omega)
    (by
      intro s k
      constructor
      · simp [toksE, dsumBE, tdel]
      · intro c hc
        refine ⟨?_, ?_, ?_, trivial⟩ <;> simp [tdel] <;> omega)
    (by
      intro l _ k
      constructor
      · show dsumBE _ _ ([Tok.ident k, Tok.eqTok, Tok.bracketOpen] ++ listToks l ++
          [Tok.bracketClose]) = 0
        rw [dsumBE_append, dsumBE_append, (hlf l).1]
        simp [dsumBE, tdel]
      · intro c hc
        show preOK _ _ c ([Tok.ident k, Tok.eqTok, Tok.bracketOpen] ++ listToks l ++
          [Tok.bracketClose])
        refine preOK_append _ _ _ _ _ ?_ ?_
        · refine preOK_append _ _ _ _ _ ?_ ?_
          · refine ⟨?_, ?_, ?_, trivial⟩ <;> simp [tdel] <;> omega
          · refine preOK_count (c := c) ?_ ((hlf l).2 c hc)
            simp [dsumBE, tdel]
        · refine ⟨?_, trivial⟩
          rw [dsumBE_append, (hlf l).1]
          simp [tdel, dsumBE]
          try omega)
    (by
      intro m hm k
      constructor
      · show dsumBE _ _ ([Tok.ident k, Tok.curlyOpen] ++ toksT m ++ [Tok.curlyClose]) = 0
        rw [dsumBE_append, dsumBE_append, hm.1]
        simp [dsumBE, tdel]
      · intro c hc
        show preOK _ _ c ([Tok.ident k, Tok.curlyOpen] ++ toksT m ++ [Tok.curlyClose])
        refine preOK_append _ _ _ _ _ ?_ ?_
        · refine preOK_append _ _ _ _ _ ?_ ?_
          · refine ⟨?_, ?_, trivial⟩ <;> simp [tdel] <;> omega
          · refine preOK_count (c := c + 1) ?_ (hm.2 (c + 1) (by omega))
            simp [dsumBE, tdel]
            try ring
        · refine ⟨?_, trivial⟩
          rw [dsumBE_append, hm.1]
          simp [tdel, dsumBE]
          try omega)

theorem gtLoopW_step (ts : List Tok) (acc : TextMap) :
    gtLoopW ts acc = gtBody getTextmap gtLoopW ts acc := by
  show gtBody (getTextmapF ts.length) (gtLoopF ts.length) ts acc = _
  apply gtBody_congr
  · intro l hl
    exact (gtF_fuel_irrel l.length l ts.length (l.length + 1) le_rfl (by omega) (by omega)).1
  · intro l a hl
    exact (gtF_fuel_irrel l.length l ts.length (l.length + 1) le_rfl (by omega) (by omega)).2 a

theorem getTextmap_run (body : List Tok) :
    getTextmap (Tok.curlyOpen :: (body ++ [Tok.curlyClose])) =
      gtLoopW (body ++ [Tok.curlyClose]) [] := by
  have hlast : (Tok.curlyOpen :: (body ++ [Tok.curlyClose])).getLast? = some Tok.curlyClose := by
    rw [show Tok.curlyOpen :: (body ++ [Tok.curlyClose]) =
      (Tok.curlyOpen :: body) ++ [Tok.curlyClose] by simp]
    exact List.getLast?_concat _
  show getTextmapF ((body ++ [Tok.curlyClose]).length + 1 + 1)
    (Tok.curlyOpen :: (body ++ [Tok.curlyClose])) = _
  simp only [getTextmapF, if_pos rfl, hlast]
  rfl

theorem alInsert_append {K V : Type} [LinearOrder K] (k : K) (v : V) :
    ∀ acc : List (K × V), (∀ kv ∈ acc, kv.1 < k) → alInsert k v acc = acc ++ [(k, v)] := by
  intro acc
  induction acc with
  | nil => intro _; rfl
  | cons kv t ih =>
    intro h
    have hlt : kv.1 < k := h kv (by simp)
    rw [show kv = (kv.1, kv.2) from rfl, alInsert, if_neg (by
        intro hc
        exact absurd (lt_trans hc hlt) (lt_irrefl _)),
      if_neg (by
        intro hc
        rw [hc] at hlt
        exact absurd hlt (lt_irrefl _)),
      ih (fun x hx => h x (by simp [hx]))]
    rfl

theorem keysSortedB_tail {k : List Nat} {v : Entry} : ∀ {t : TextMap},
    keysSortedB ((k, v) :: t) = true → keysSortedB t = true := by
  intro t h
  cases t with
  | nil => rfl
  | cons kv2 t2 =>
    simp only [keysSortedB, Bool.and_eq_true] at h
    exact h.2

theorem keysSortedB_lt : ∀ (t : TextMap) (k : List Nat) (v : Entry),
    keysSortedB ((k, v) :: t) = true → ∀ kv ∈ t, k < kv.1 := by
  intro t
  induction t with
  | nil => intro _ _ _ kv hkv; simp at hkv
  | cons kv2 t2 ih =>
    intro k v h kv hkv
    have h' := h
    simp only [keysSortedB, Bool.and_eq_true, decide_eq_true_eq] at h'
    rcases List.mem_cons.mp hkv with hh | hh
    · rw [hh]
      exact h'.1
    · exact lt_trans h'.1 (ih kv2.1 kv2.2 (by simpa using h'.2) kv hh)

theorem scalarOK_ctor {e : Entry} (h : scalarOK e = true) : isScalarCtor e = true := by
  cases e <;> simp [scalarOK, isScalarCtor] at h ⊢

theorem getListGo_toks : ∀ l : List Entry, (∀ e ∈ l, isScalarCtor e = true) →
    getListGo (listToks l) = .ok l := by
  intro l
  induction l with
  | nil => intro _; rfl
  | cons e t ih =>
    intro hl
    have he : isScalarCtor e = true := hl e (by simp)
    cases t with
    | nil =>
      cases e with
      | num n => rfl
      | str s => rfl
      | list l2 => simp [isScalarCtor] at he
      | map m2 => simp [isScalarCtor] at he
    | cons e2 t2 =>
      have ih2 := ih (fun x hx => hl x (by simp [hx]))
      cases e with
      | num n =>
        show getListGo (Tok.num n :: Tok.comma :: listToks (e2 :: t2)) = _
        show PRes.map (Entry.num n :: ·) (getListGo (Tok.comma :: listToks (e2 :: t2))) = _
        show PRes.map (Entry.num n :: ·) (getListGo (listToks (e2 :: t2))) = _
        rw [ih2]
        rfl
      | str s =>
        show PRes.map (Entry.str s :: ·) (getListGo (listToks (e2 :: t2))) = _
        rw [ih2]
        rfl
      | list l2 => simp [isScalarCtor] at he
      | map m2 => simp [isScalarCtor] at he

theorem getList_toks (l : List Entry) (hl : ∀ e ∈ l, isScalarCtor e = true) :
    getList ((Tok.bracketOpen :: listToks l) ++ [Tok.bracketClose]) = .ok l := by
  have hlast : ((Tok.bracketOpen :: listToks l) ++ [Tok.bracketClose]).getLast? =
      some Tok.bracketClose := List.getLast?_concat _
  show getList (Tok.bracketOpen :: (listToks l ++ [Tok.bracketClose])) = _
  rw [getList, if_pos rfl]
  rw [show (Tok.bracketOpen :: (listToks l ++ [Tok.bracketClose])).getLast? =
    ((Tok.bracketOpen :: listToks l) ++ [Tok.bracketClose]).getLast? by simp, hlast]
  rw [List.dropLast_concat]
  exact getListGo_toks l hl

theorem ne_cc_co : ¬(Tok.curlyClose = Tok.curlyOpen) := by simp

theorem ne_bc_bo : ¬(Tok.bracketClose = Tok.bracketOpen) := by simp

/-- `find_matching_token` on the serialized tokens of a nested map. -/
theorem findMatching_map (mm : TextMap) (rest : List Tok) :
    findMatching (Tok.curlyOpen :: (toksT mm ++ Tok.curlyClose :: rest))
      Tok.curlyOpen Tok.curlyClose =
      some ((Tok.curlyOpen :: toksT mm) ++ [Tok.curlyClose]) := by
  show fmGo _ _ (Tok.curlyOpen :: (toksT mm ++ Tok.curlyClose :: rest)) 0 = _
  rw [show Tok.curlyOpen :: (toksT mm ++ Tok.curlyClose :: rest) =
    (Tok.curlyOpen :: toksT mm) ++ Tok.curlyClose :: rest by simp]
  apply fmGo_run _ _ ne_cc_co
  · refine ⟨by rw [tdel_b]; omega, ?_⟩
    exact preOK_count (by rw [tdel_b]; ring) ((toks_balance.1 mm).2 1 le_rfl)
  · rw [dsumBE_cons, tdel_b, (toks_balance.1 mm).1]
    ring

/-- `find_matching_token` on the serialized tokens of a list. -/
theorem findMatching_list (l : List Entry) (rest : List Tok) :
    findMatching (Tok.bracketOpen :: (listToks l ++ Tok.bracketClose :: rest))
      Tok.bracketOpen Tok.bracketClose =
      some ((Tok.bracketOpen :: listToks l) ++ [Tok.bracketClose]) := by
  have hlf := listToks_flat Tok.bracketOpen Tok.bracketClose
    (fun n => by simp) (fun s => by simp) (fun c => by simp) (by simp)
    (fun n => by simp) (fun s => by simp) (fun c => by simp) (by simp)
  show fmGo _ _ (Tok.bracketOpen :: (listToks l ++ Tok.bracketClose :: rest)) 0 = _
  rw [show Tok.bracketOpen :: (listToks l ++ Tok.bracketClose :: rest) =
    (Tok.bracketOpen :: listToks l) ++ Tok.bracketClose :: rest by simp]
  apply fmGo_run _ _ ne_bc_bo
  · refine ⟨by rw [tdel_b]; omega, ?_⟩
    exact preOK_count (by rw [tdel_b]; ring) ((hlf l).2 1 le_rfl)
  · rw [dsumBE_cons, tdel_b, (hlf l).1]
    ring

/-- The parser loop consumes the serialized tokens of a well-formed sorted
map, appending its entries to the accumulator, and stops at the closing
curly brace. -/
theorem gtLoop_toks :
    (∀ m : TextMap, wfT m = true → keysSortedB m = true →
      ∀ (junk : List Tok) (acc : TextMap), (∀ kv ∈ acc, ∀ kv' ∈ m, kv.1 < kv'.1) →
      gtLoopW (toksT m ++ Tok.curlyClose :: junk) acc = .ok (acc ++ m)) ∧
    (∀ e : Entry, ∀ mm : TextMap, e = Entry.map mm → wfE e = true →
      getTextmap (Tok.curlyOpen :: (toksT mm ++ [Tok.curlyClose])) = .ok mm) := by
  exact entry_textmap_induction
    (fun m => wfT m = true → keysSortedB m = true →
      ∀ (junk : List Tok) (acc : TextMap), (∀ kv ∈ acc, ∀ kv' ∈ m, kv.1 < kv'.1) →
      gtLoopW (toksT m ++ Tok.curlyClose :: junk) acc = .ok (acc ++ m))
    (fun e => ∀ mm : TextMap, e = Entry.map mm → wfE e = true →
      getTextmap (Tok.curlyOpen :: (toksT mm ++ [Tok.curlyClose])) = .ok mm)
    (by
      intro _ _ junk acc _
      show gtLoopW (Tok.curlyClose :: junk) acc = _
      rw [gtLoopW_step, gtBody_close]
      simp)
    (by
      intro k v t hv ht hwf hsort junk acc hacc
      simp only [wfT, Bool.and_eq_true] at hwf
      obtain ⟨⟨hwk, hwv⟩, hwt⟩ := hwf
      have hsort' : keysSortedB t = true := keysSortedB_tail hsort
      have hklt : ∀ kv ∈ t, k < kv.1 := keysSortedB_lt t k v hsort
      have hacck : ∀ kv ∈ acc, kv.1 < k := fun kv hkv => hacc kv hkv (k, v) (by simp)
      have hacc' : ∀ kv ∈ acc ++ [(k, v)], ∀ kv' ∈ t, kv.1 < kv'.1 := by
        intro kv hkv kv' hkv'
        rcases List.mem_append.mp hkv with hh | hh
        · exact hacc kv hh kv' (by simp [hkv'])
        · simp only [List.mem_singleton] at hh
          rw [hh]
          exact hklt kv' hkv'
      have hrec : gtLoopW (toksT t ++ Tok.curlyClose :: junk) (acc ++ [(k, v)]) =
          .ok (acc ++ (k, v) :: t) := by
        rw [ht hwt hsort' junk (acc ++ [(k, v)]) hacc']
        simp
      cases v with
      | num n =>
        show gtLoopW (Tok.ident k :: Tok.eqTok :: Tok.num n ::
          (toksT t ++ Tok.curlyClose :: junk)) acc = _
        rw [gtLoopW_step, gtBody_num, alInsert_append k _ acc hacck]
        exact hrec
      | str s =>
        show gtLoopW (Tok.ident k :: Tok.eqTok :: Tok.str s ::
          (toksT t ++ Tok.curlyClose :: junk)) acc = _
        rw [gtLoopW_step, gtBody_str, alInsert_append k _ acc hacck]
        exact hrec
      | list l =>
        have hsc : ∀ e ∈ l, isScalarCtor e = true := by
          intro e he
          exact scalarOK_ctor (List.all_eq_true.mp (by simpa [wfE] using hwv) e he)
        rw [show toksT ((k, Entry.list l) :: t) ++ Tok.curlyClose :: junk =
          Tok.ident k :: Tok.eqTok :: Tok.bracketOpen ::
            (listToks l ++ Tok.bracketClose :: (toksT t ++ Tok.curlyClose :: junk)) by
          show (toksE k (Entry.list l) ++ toksT t) ++ Tok.curlyClose :: junk = _
          simp [toksE]]
        rw [gtLoopW_step, gtBody_list, findMatching_list l (toksT t ++ Tok.curlyClose :: junk)]
        show (getList ((Tok.bracketOpen :: listToks l) ++ [Tok.bracketClose])).bind (fun l1 =>
          gtLoopW ((Tok.bracketOpen :: (listToks l ++ Tok.bracketClose ::
              (toksT t ++ Tok.curlyClose :: junk))).drop
            ((Tok.bracketOpen :: listToks l) ++ [Tok.bracketClose]).length)
            (alInsert k (Entry.list l1) acc)) = _
        rw [getList_toks l hsc, PRes.bind_ok]
        rw [show Tok.bracketOpen :: (listToks l ++ Tok.bracketClose ::
          (toksT t ++ Tok.curlyClose :: junk)) =
          ((Tok.bracketOpen :: listToks l) ++ [Tok.bracketClose]) ++
            (toksT t ++ Tok.curlyClose :: junk) by simp]
        rw [List.drop_left, alInsert_append k _ acc hacck]
        exact hrec
      | map mm =>
        have hnest := hv mm rfl hwv
        rw [show toksT ((k, Entry.map mm) :: t) ++ Tok.curlyClose :: junk =
          Tok.ident k :: Tok.curlyOpen ::
            (toksT mm ++ Tok.curlyClose :: (toksT t ++ Tok.curlyClose :: junk)) by
          show (toksE k (Entry.map mm) ++ toksT t) ++ Tok.curlyClose :: junk = _
          simp [toksE]]
        rw [gtLoopW_step, gtBody_map,
          findMatching_map mm (toksT t ++ Tok.curlyClose :: junk)]
        show (getTextmap ((Tok.curlyOpen :: toksT mm) ++ [Tok.curlyClose])).bind (fun tm =>
          gtLoopW ((Tok.curlyOpen :: (toksT mm ++ Tok.curlyClose ::
              (toksT t ++ Tok.curlyClose :: junk))).drop
            ((Tok.curlyOpen :: toksT mm) ++ [Tok.curlyClose]).length)
            (alInsert k (Entry.map tm) acc)) = _
        rw [show (Tok.curlyOpen :: toksT mm) ++ [Tok.curlyClose] =
          Tok.curlyOpen :: (toksT mm ++ [Tok.curlyClose]) by simp, hnest, PRes.bind_ok]
        rw [show Tok.curlyOpen :: (toksT mm ++ Tok.curlyClose ::
          (toksT t ++ Tok.curlyClose :: junk)) =
          (Tok.curlyOpen :: (toksT mm ++ [Tok.curlyClose])) ++
            (toksT t ++ Tok.curlyClose :: junk) by simp]
        rw [List.drop_left, alInsert_append k _ acc hacck]
        exact hrec)
    (by intro n mm h; exact absurd h (by simp))
    (by intro s mm h; exact absurd h (by simp))
    (by intro l _ mm h; exact absurd h (by simp))
    (by
      intro m hm mm heq hwf
      have hmm : mm = m := by injection heq.symm
      subst hmm
      simp only [wfE, Bool.and_eq_true] at hwf
      rw [getTextmap_run, show toksT mm ++ [Tok.curlyClose] =
        toksT mm ++ Tok.curlyClose :: [] from rfl,
        hm hwf.2 hwf.1 [] [] (by intro kv hkv; simp at hkv)]
      rfl)

/-- `wfT` maps are scalar-listed (what `textmap_to_buf` needs). -/
theorem wfT_listsScalar :
    (∀ m : TextMap, wfT m = true → listsScalarT m = true) ∧
    (∀ e : Entry, wfE e = true → listsScalarE e = true) := by
  exact entry_textmap_induction
    (fun m => wfT m = true → listsScalarT m = true)
    (fun e => wfE e = true → listsScalarE e = true)
    (fun _ => rfl)
    (by
      intro k v t hv ht h
      simp only [wfT, Bool.and_eq_true] at h
      show (listsScalarE v && listsScalarT t) = true
      rw [hv h.1.2, ht h.2]
      rfl)
    (fun n _ => rfl)
    (fun s _ => rfl)
    (by
      intro l _ h
      simp only [wfE] at h
      show l.all isScalarCtor = true
      exact List.all_eq_true.mpr fun e he => scalarOK_ctor (List.all_eq_true.mp h e he))
    (by
      intro m hm h
      simp only [wfE, Bool.and_eq_true] at h
      exact hm h.2)

/-- C3 counterexample: the map `m` parsed from `a {\n}\n5 = 1\n` (the
digit-led key `5` is lexed as an identifier because the `next_is_ident`
flag is still set after the empty section) serializes with `5 = 1` first
(key order), where `5` is lexed as a number, so re-parsing fails instead
of returning `m`. -/
theorem C3_counterexample_roundtrip :
    bufToTextmap (strB "a \x7b\n\x7d\n5 = 1\n") =
        PRes.ok [([53], Entry.num 1), ([97], Entry.map [])] ∧
      PRes.bind (textmapToBuf [([53], Entry.num 1), ([97], Entry.map [])]) bufToTextmap ≠
        PRes.ok [([53], Entry.num 1), ([97], Entry.map [])] := by
  decide

/-- C3 (amended): for every map whose keys — at every nesting level — pass
`keyOK` (start with a letter, `_` or `.`, continue with identifier bytes),
whose lists hold only scalars, and whose keys are sorted (as
`buf_to_textmap` produces), serialize-then-parse is the identity:
`buf_to_textmap(textmap_to_buf(m)) = Ok(m)`. -/
theorem C3_roundtrip_wf_sorted (m : TextMap) (h : wfTop m = true) :
    PRes.bind (textmapToBuf m) bufToTextmap = PRes.ok m := by
  simp only [wfTop, Bool.and_eq_true] at h
  obtain ⟨hsort, hwf⟩ := h
  rw [textmapToBuf_spec m (wfT_listsScalar.1 m hwf) 0, PRes.bind_ok]
  have hlex : lexAll (specSer 0 0 m) false = .ok (toksT m) := by
    have h2 := lexAll_ser.1 m hwf 0 [] false flagInv_nil
    rw [List.append_nil] at h2
    rw [h2, lexAll_nil]
    simp
  rw [bufToTextmap, hlex]
  show getTextmap (Tok.curlyOpen :: (toksT m ++ [Tok.curlyClose])) = PRes.ok m
  rw [getTextmap_run, gtLoop_toks.1 m hwf hsort [] [] (by intro kv hkv; simp at hkv)]
  rfl

theorem C3_roundtrip_wf_sorted_witness :
    wfTop [([97], Entry.map [([98], Entry.num 1)]),
        ([99], Entry.list [Entry.num 2, Entry.str [100]])] = true ∧
      PRes.bind (textmapToBuf [([97], Entry.map [([98], Entry.num 1)]),
          ([99], Entry.list [Entry.num 2, Entry.str [100]])]) bufToTextmap =
        PRes.ok [([97], Entry.map [([98], Entry.num 1)]),
          ([99], Entry.list [Entry.num 2, Entry.str [100]])] :=
  ⟨by decide, C3_roundtrip_wf_sorted
    [([97], Entry.map [([98], Entry.num 1)]),
      ([99], Entry.list [Entry.num 2, Entry.str [100]])] (by decide)⟩

theorem PRes.bind_eq_ok {α β : Type} {x : PRes α} {f : α → PRes β} {b : β}
    (h : PRes.bind x f = .ok b) : ∃ a, x = .ok a ∧ f a = .ok b := by
  cases x with
  | ok a => exact ⟨a, rfl, h⟩
  | err => exact absurd h (by simp)
  | crash => exact absurd h (by simp)

theorem getLast?_cons {α : Type} (a : α) (l : List α) :
    (a :: l).getLast? = l.getLast?.or (some a) := by
  cases l with
  | nil => rfl
  | cons b t =>
    rw [List.getLast?_cons_cons]
    cases h : (b :: t).getLast? with
    | none => exact absurd h (by simp)
    | some x => rfl

theorem first_fit_eq_find (n : Nat) : ∀ areas : List (Nat × Nat),
    first_fit n areas = areas.find? (fun sl => n ≤ sl.2) := by
  intro areas
  induction areas with
  | nil => rfl
  | cons sl rest ih =>
    rw [show sl = (sl.1, sl.2) from rfl, first_fit, List.find?]
    by_cases h : n ≤ sl.2
    · simp [h]
    · simp [h, ih]

theorem find_contig_acc (n : Nat) : ∀ (fa : List (Device × List (Nat × Nat)))
    (acc : Option (Device × Nat × Nat)),
    fa.foldl (fun acc dv =>
      match first_fit n dv.2 with
      | some sl => some (dv.1, sl.1, sl.2)
      | none => acc) acc =
    ((fa.filterMap (fun dv =>
      (first_fit n dv.2).map (fun sl => (dv.1, sl.1, sl.2)))).getLast?).or acc := by
  intro fa
  induction fa with
  | nil => intro acc; rfl
  | cons dv rest ih =>
    intro acc
    rw [List.foldl_cons, ih, List.filterMap_cons]
    cases h : first_fit n dv.2 with
    | none => rfl
    | some sl =>
      simp only [Option.map_some']
      rw [getLast?_cons, Option.or_assoc]
      rfl

theorem find_contig_eq_last_fit (n : Nat) (fa : List (Device × List (Nat × Nat))) :
    find_contig n fa = last_fit_spec n fa := by
  rw [find_contig, find_contig_acc, Option.or_none, last_fit_spec]
  congr 1
  apply List.filterMap_congr
  intro dv _
  rw [first_fit_eq_find]

theorem find_contig_mem {n : Nat} {fa : List (Device × List (Nat × Nat))}
    {d : Device} {s len : Nat} (h : find_contig n fa = some (d, s, len)) :
    ∃ areas, (d, areas) ∈ fa ∧ (s, len) ∈ areas ∧ n ≤ len := by
  rw [find_contig_eq_last_fit, last_fit_spec] at h
  rcases List.mem_filterMap.mp (List.mem_of_mem_getLast? h) with ⟨dv, hdv, hf⟩
  rcases Option.map_eq_some'.mp hf with ⟨sl, hfind, heq⟩
  have hd : dv.1 = d := congrArg (fun t => t.1) heq
  have hs : sl.1 = s := congrArg (fun t => t.2.1) heq
  have hl : sl.2 = len := congrArg (fun t => t.2.2) heq
  refine ⟨dv.2, ?_, ?_, ?_⟩
  · rw [← hd]
    exact hdv
  · have := List.mem_of_find?_eq_some hfind
    rwa [show sl = (s, len) from Prod.ext hs hl] at this
  · have := List.find?_some hfind
    simp only [decide_eq_true_eq] at this
    omega

theorem alLookup_alInsert_self {K V : Type} [LinearOrder K] [DecidableEq K] (k : K) (v : V) :
    ∀ l : List (K × V), alLookup k (alInsert k v l) = some v := by
  intro l
  induction l with
  | nil => simp [alInsert, alLookup]
  | cons kv t ih =>
    rw [show kv = (kv.1, kv.2) from rfl, alInsert]
    by_cases h1 : k < kv.1
    · simp [h1, alLookup]
    · by_cases h2 : k = kv.1
      · simp [h1, h2, alLookup]
      · simp only [if_neg h1, if_neg h2, alLookup, ih, if_neg h2]

theorem alLookup_alInsert_ne {K V : Type} [LinearOrder K] [DecidableEq K] {k k' : K} (v : V)
    (hne : k' ≠ k) : ∀ l : List (K × V), alLookup k' (alInsert k v l) = alLookup k' l := by
  intro l
  induction l with
  | nil => simp [alInsert, alLookup, hne]
  | cons kv t ih =>
    rw [show kv = (kv.1, kv.2) from rfl, alInsert]
    by_cases h1 : k < kv.1
    · simp only [if_pos h1, alLookup, if_neg hne]
    · by_cases h2 : k = kv.1
      · subst h2
        simp only [if_neg h1, if_pos rfl, alLookup, if_neg hne]
      · simp only [if_neg h1, if_neg h2, alLookup, ih]

/-- Inversion of a successful `lv_create_linear`. -/
theorem lv_create_linear_ok {vg : VG} {name newid : List Nat} {n : Nat} {vg' : VG}
    (h : VG.lv_create_linear vg name newid n = .ok vg') :
    ∃ fa dsl, alLookup name vg.lvs = none ∧ VG.free_areas vg = .ok fa ∧
      find_contig n fa = some dsl ∧
      vg' = VG.commit { vg with lvs := alInsert name ⟨name, newid, [⟨0, n, none, [(dsl.1, dsl.2.1)]⟩]⟩ vg.lvs } := by
  rw [VG.lv_create_linear] at h
  cases hname : alLookup name vg.lvs with
  | some lv0 => rw [hname] at h; simp at h
  | none =>
    rw [hname] at h
    simp only [Option.isSome_none, Bool.false_eq_true, if_false] at h
    rcases PRes.bind_eq_ok h with ⟨fa, hfa, h2⟩
    cases hfc : find_contig n fa with
    | none => rw [hfc] at h2; simp at h2
    | some dsl =>
      rw [hfc] at h2
      refine ⟨fa, dsl, rfl, hfa, hfc, ?_⟩
      exact (PRes.ok.injEq _ _ ▸ h2).symm

/-! ### Field tracking through `pv_add` and `create` -/
theorem pv_add_fields {vg : VG} {pvh : PvInfo} {vg' : VG}
    (h : VG.pv_add vg pvh = .ok vg') :
    vg'.seqno = vg.seqno + 1 ∧ vg'.extent_size = vg.extent_size ∧
      vg'.status = vg.status ∧ vg'.name = vg.name ∧ vg'.id = vg.id ∧
      vg'.lvs = vg.lvs := by
  rw [VG.pv_add] at h
  by_cases h1 : (alLookup pvh.dev vg.pvs).isSome
  · rw [if_pos h1] at h
    simp at h
  · rw [if_neg h1] at h
    by_cases h2 : pvh.has_meta
    · rw [if_pos h2] at h
      simp at h
    · rw [if_neg h2] at h
      cases hda : pvh.da_offsets.head? with
      | none => rw [hda] at h; simp at h
      | some da_offset =>
        rw [hda] at h
        have h3 := (PRes.ok.injEq _ _ ▸ h).symm
        subst h3
        exact ⟨rfl, rfl, rfl, rfl, rfl, rfl⟩

theorem pv_add_all_fields : ∀ (infos : List PvInfo) (vg vg' : VG),
    pv_add_all vg infos = .ok vg' →
    vg'.seqno = vg.seqno + infos.length ∧ vg'.extent_size = vg.extent_size ∧
      vg'.status = vg.status ∧ vg'.name = vg.name ∧ vg'.id = vg.id ∧
      vg'.lvs = vg.lvs := by
  intro infos
  induction infos with
  | nil =>
    intro vg vg' h
    have h3 := (PRes.ok.injEq _ _ ▸ h).symm
    subst h3
    exact ⟨rfl, rfl, rfl, rfl, rfl, rfl⟩
  | cons p rest ih =>
    intro vg vg' h
    rcases PRes.bind_eq_ok h with ⟨vg2, h1, h2⟩
    obtain ⟨a1, a2, a3, a4, a5, a6⟩ := pv_add_fields h1
    obtain ⟨b1, b2, b3, b4, b5, b6⟩ := ih vg2 vg' h2
    refine ⟨by rw [b1, a1]; simp; ring, by rw [b2, a2], by rw [b3, a3],
      by rw [b4, a4], by rw [b5, a5], by rw [b6, a6]⟩

/-! ### `pv_remove` scan characterization -/
theorem lv_uses_iff {dev : Device} {lv : LV} :
    lv_uses dev lv = true ↔
      ∃ seg ∈ lv.segments, dev ∈ StripedSegment.pv_dependencies seg := by
  simp only [lv_uses, List.any_eq_true, decide_eq_true_eq]
  constructor
  · rintro ⟨seg, hseg, d, hd, rfl⟩
    exact ⟨seg, hseg, hd⟩
  · rintro ⟨seg, hseg, hd⟩
    exact ⟨seg, hseg, dev, hd, rfl⟩

theorem find_in_use_spec (dev : Device) : ∀ lvs : List (List Nat × LV),
    (∃ kv ∈ lvs, ∃ seg ∈ kv.2.segments, dev ∈ StripedSegment.pv_dependencies seg) →
    ∃ lvname lv, (lvname, lv) ∈ lvs ∧
      (∃ seg ∈ lv.segments, dev ∈ StripedSegment.pv_dependencies seg) ∧
      find_in_use dev lvs = some lvname := by
  intro lvs
  induction lvs with
  | nil => rintro ⟨kv, hkv, _⟩; simp at hkv
  | cons kv0 rest ih =>
    intro h
    by_cases hu : lv_uses dev kv0.2
    · refine ⟨kv0.1, kv0.2, by simp, lv_uses_iff.mp hu, ?_⟩
      rw [show kv0 = (kv0.1, kv0.2) from rfl, find_in_use, if_pos hu]
    · rcases h with ⟨kv, hkv, hseg⟩
      rcases List.mem_cons.mp hkv with hh | hh
      · rw [hh] at hseg
        exact absurd (lv_uses_iff.mpr hseg) hu
      · obtain ⟨lvname, lv, hm, hus, hfind⟩ := ih ⟨kv, hh, hseg⟩
        refine ⟨lvname, lv, List.mem_cons_of_mem _ hm, hus, ?_⟩
        rw [show kv0 = (kv0.1, kv0.2) from rfl, find_in_use, if_neg hu, hfind]

/-- C1 counterexample: in `vg_free2` both PVs are entirely free and the
first, `dev1`, has a 32-extent area fitting a 10-extent request — yet
`lv_create_linear` places the LV on `dev2` (the `break` only leaves the
inner loop, so the last PV with a fitting area wins). -/
theorem C1_counterexample_first_fit :
    VG.free_areas vg_free2 = .ok [(dev1, [(0, 32)]), (dev2, [(0, 64)])] ∧
      first_fit 10 [(0, 32)] = some (0, 32) ∧
      VG.lv_create_linear vg_free2 (strB "l") [] 10 =
        PRes.ok ⟨strB "t", [], 3, 8192, stat3, [(dev1, pv32), (dev2, pv64)],
          [(strB "l", ⟨strB "l", [], [⟨0, 10, none, [(dev2, 0)]⟩]⟩)]⟩ := by
  decide

/-- C1 (amended): for every VG and requested extent count `n`,
`lv_create_linear` allocates according to `last_fit_spec`: it selects the
**last** PV (in `free_areas`' key order) that has a free area of at least
`n` extents, and on that PV the **first** such area in start order; the
new LV's single segment is `n` extents at that area's start with
`start_extent = 0`, and the call fails (no-space error) exactly when no
free area of at least `n` extents exists on any single PV.  (The claim's
`d1`/`d2` scenario conclusion — `"big", 40` lands on `d2` at extent 0 —
still holds, since `d1`'s only free area is too small; see the witness.) -/
theorem C1_allocator_last_pv_first_area (vg : VG) (name newid : List Nat) (n : Nat)
    (hname : alLookup name vg.lvs = none) (fa : List (Device × List (Nat × Nat)))
    (hfa : VG.free_areas vg = .ok fa) :
    VG.lv_create_linear vg name newid n =
      (match last_fit_spec n fa with
      | none => PRes.err
      | some dsl => PRes.ok (VG.commit { vg with lvs := alInsert name ⟨name, newid, [⟨0, n, none, [(dsl.1, dsl.2.1)]⟩]⟩ vg.lvs })) := by
  rw [VG.lv_create_linear, hname]
  simp only [Option.isSome_none, Bool.false_eq_true, if_false]
  rw [hfa, PRes.bind_ok, find_contig_eq_last_fit]

theorem C1_allocator_last_pv_first_area_witness :
    alLookup (strB "big") vg_scn.lvs = none ∧
      VG.free_areas vg_scn = .ok [(dev1, [(24, 8)]), (dev2, [(0, 64)])] ∧
      last_fit_spec 40 [(dev1, [(24, 8)]), (dev2, [(0, 64)])] = some (dev2, 0, 64) ∧
      VG.lv_create_linear vg_scn (strB "big") [] 40 = PRes.ok vg_scn2 := by
  refine ⟨by decide, by decide, by decide, ?_⟩
  rw [C1_allocator_last_pv_first_area vg_scn (strB "big") [] 40 (by decide)
    [(dev1, [(24, 8)]), (dev2, [(0, 64)])] (by decide)]
  decide

/-- C2: the area algebra the spec states is violated by the code on
reachable states.  Creating a 32-extent LV on the 32-extent PV of
`vg_one` yields `vg_full`, whose single PV is fully used; `free_areas`'
second loop then reports the whole PV `[0, 32)` as free again, so used
and free overlap on every extent and their lengths sum to 64, not
`pe_count = 32`.  Moreover an untouched PV with `pe_count = 0` produces
the zero-length free entry `(0, 0)`. -/
theorem C2_area_algebra_violated :
    VG.lv_create_linear vg_one (strB "l") [] 32 = PRes.ok vg_full ∧
      VG.used_areas vg_full = [(dev1, [(0, 32)])] ∧
      VG.free_areas vg_full = PRes.ok [(dev1, [(0, 32)])] ∧
      VG.free_areas vg_zero = PRes.ok [(⟨8, 48⟩, [(0, 0)])] := by
  decide

/-- C5: after a successful `lv_create_linear(name, n)` the new LV's
single segment covers the PV-extent range `[s, s+n)` on device `d`,
where `(s, len)` with `n ≤ len` is one of the free areas `free_areas`
reported before the call (so `[s, s+n) ⊆ [s, s+len)`); the new LV (name,
uuid, that one segment) is found under `name`, and every other LV of the
VG is looked up unchanged. -/
theorem C5_lv_create_frame (vg : VG) (name newid : List Nat) (n : Nat) (vg' : VG)
    (h : VG.lv_create_linear vg name newid n = .ok vg') :
    ∃ fa d s len areas,
      VG.free_areas vg = .ok fa ∧ (d, areas) ∈ fa ∧ (s, len) ∈ areas ∧ n ≤ len ∧
      alLookup name vg'.lvs = some ⟨name, newid, [⟨0, n, none, [(d, s)]⟩]⟩ ∧
      (∀ name2, name2 ≠ name → alLookup name2 vg'.lvs = alLookup name2 vg.lvs) := by
  rcases lv_create_linear_ok h with ⟨fa, dsl, _, hfa, hfc, hvg⟩
  rcases find_contig_mem (show find_contig n fa = some (dsl.1, dsl.2.1, dsl.2.2) by
    rw [hfc]) with ⟨areas, hin, hmem, hlen⟩
  subst hvg
  refine ⟨fa, dsl.1, dsl.2.1, dsl.2.2, areas, hfa, hin, hmem, hlen, ?_, ?_⟩
  · exact alLookup_alInsert_self name _ vg.lvs
  · intro name2 hne
    exact alLookup_alInsert_ne _ hne vg.lvs

theorem C5_lv_create_frame_witness :
    VG.lv_create_linear vg_scn (strB "big") [] 40 = PRes.ok vg_scn2 ∧
      (∃ fa d s len areas,
        VG.free_areas vg_scn = .ok fa ∧ (d, areas) ∈ fa ∧ (s, len) ∈ areas ∧ 40 ≤ len ∧
        alLookup (strB "big") vg_scn2.lvs =
          some ⟨strB "big", [], [⟨0, 40, none, [(d, s)]⟩]⟩ ∧
        (∀ name2, name2 ≠ strB "big" →
          alLookup name2 vg_scn2.lvs = alLookup name2 vg_scn.lvs)) :=
  ⟨by decide, C5_lv_create_frame vg_scn (strB "big") [] 40 vg_scn2 (by decide)⟩

/-- C6 counterexample: the claim's scenario — `vg_create("t", [d1, d2])`
followed by `lv_create_linear("l", 10)` — leaves (and persists) seqno 3,
not 2: `create` runs one commit per `pv_add` (there is no extra final
commit), so the two-PV create already ends at seqno 2, and the LV
creation's commit makes it 3. -/
theorem C6_counterexample_seqno :
    (PRes.bind (VG.create (strB "t") [] [pvinfo1, pvinfo2])
        (fun vg => VG.lv_create_linear vg (strB "l") [] 10)).map VG.seqno = .ok 3 ∧
      ¬(PRes.bind (VG.create (strB "t") [] [pvinfo1, pvinfo2])
        (fun vg => VG.lv_create_linear vg (strB "l") [] 10)).map VG.seqno = .ok 2 := by
  decide

/-- C6 (amended): `create` initializes the VG with extent size 8192
sectors, status `READ`/`WRITE`/`RESIZEABLE` and seqno 0 and folds in each
PV via `pv_add` — but each `pv_add` ends with its own commit, so a
successful `create` over `k` PVs returns seqno `k` (there is no single
final commit leaving seqno 1); and every successful `lv_create_linear`
runs exactly one further commit.  Hence the claim's scenario persists
seqno 3, as the counterexample computes. -/
theorem C6_create_commits_per_pv :
    (∀ (name id : List Nat) (infos : List PvInfo) (vg : VG),
      VG.create name id infos = .ok vg →
      vg.seqno = infos.length ∧ vg.extent_size = 8192 ∧ vg.status = stat3 ∧
        vg.name = name ∧ vg.id = id ∧ vg.lvs = []) ∧
    (∀ (vg : VG) (name newid : List Nat) (n : Nat) (vg' : VG),
      VG.lv_create_linear vg name newid n = .ok vg' → vg'.seqno = vg.seqno + 1) := by
  constructor
  · intro name id infos vg h
    rw [VG.create] at h
    by_cases h1 : infos.isEmpty
    · rw [if_pos h1] at h
      simp at h
    · rw [if_neg h1] at h
      by_cases h2 : (infos.map (fun p => p.mda_sizes.length)).sum = 0
      · rw [if_pos h2] at h
        simp at h
      · rw [if_neg h2] at h
        obtain ⟨a1, a2, a3, a4, a5, a6⟩ := pv_add_all_fields infos _ vg h
        exact ⟨by simp [a1], by simp [a2], by simp [a3, stat3], by simp [a4],
          by simp [a5], by simp [a6]⟩
  · intro vg name newid n vg' h
    rcases lv_create_linear_ok h with ⟨fa, dsl, _, _, _, hvg⟩
    subst hvg
    rfl

theorem C6_create_commits_per_pv_witness :
    VG.create (strB "t") [] [pvinfo1, pvinfo2] = .ok vg_created ∧
      vg_created.seqno = [pvinfo1, pvinfo2].length ∧
      vg_created.extent_size = 8192 ∧ vg_created.status = stat3 := by
  have h : VG.create (strB "t") [] [pvinfo1, pvinfo2] = .ok vg_created := by decide
  obtain ⟨a1, a2, a3, _⟩ := C6_create_commits_per_pv.1 (strB "t") [] [pvinfo1, pvinfo2]
    vg_created h
  exact ⟨h, a1, a2, a3⟩

/-- C7: whenever some LV of the VG has a segment whose stripes reference
the device, `pv_remove` returns the in-use refusal naming such an LV —
before touching the PV map, the LV map, the seqno or the persisted
metadata (the scan precedes any mutation or commit, and `.inUse` carries
no updated VG). -/
theorem C7_pv_remove_refuses_in_use (vg : VG) (dev : Device)
    (h : ∃ kv ∈ vg.lvs, ∃ seg ∈ kv.2.segments, dev ∈ StripedSegment.pv_dependencies seg) :
    ∃ lvname lv, (lvname, lv) ∈ vg.lvs ∧
      (∃ seg ∈ lv.segments, dev ∈ StripedSegment.pv_dependencies seg) ∧
      VG.pv_remove vg dev = .inUse lvname := by
  obtain ⟨lvname, lv, hm, hus, hfind⟩ := find_in_use_spec dev vg.lvs h
  refine ⟨lvname, lv, hm, hus, ?_⟩
  rw [VG.pv_remove, hfind]

theorem C7_pv_remove_refuses_in_use_witness :
    (∃ kv ∈ vg_full.lvs, ∃ seg ∈ kv.2.segments,
      dev1 ∈ StripedSegment.pv_dependencies seg) ∧
      (∃ lvname lv, (lvname, lv) ∈ vg_full.lvs ∧
        (∃ seg ∈ lv.segments, dev1 ∈ StripedSegment.pv_dependencies seg) ∧
        VG.pv_remove vg_full dev1 = .inUse lvname) :=
  ⟨by decide, C7_pv_remove_refuses_in_use vg_full dev1 (by decide)⟩

/-- C10: the striped-segment textmap round trip is broken — the segment
`{start_extent 3, extent_count 5, stripe_size None, stripes [(dev1, 7)]}`
serialized with the table `dev1 ↦ pv0` and parsed back with the matching
table `pv0 ↦ dev1` comes back with `stripe_size = Some 3`, because
`from_textmap` fills `stripe_size` from the `"start_extent"` key; every
other field survives.  So the round trip changes any segment whose
`stripe_size` differs from `Some start_extent`. -/
theorem C10_roundtrip_alters_stripe_size :
    PRes.bind (StripedSegment.to_textmap ⟨3, 5, none, [(dev1, 7)]⟩ [(dev1, 0)])
        (fun tm => StripedSegment.from_textmap tm [(strB "pv0", dev1)]) =
      PRes.ok ⟨3, 5, some 3, [(dev1, 7)]⟩ ∧
      ((⟨3, 5, some 3, [(dev1, 7)]⟩ : StripedSegment) ≠ ⟨3, 5, none, [(dev1, 7)]⟩) := by
  decide

set_option maxRecDepth 100000 in
/-- C4: a wrapping write destroys the metadata it writes.  On the fresh
1024-byte area, `write_metadata` of the 568-byte blob succeeds and records
raw location offset 512 and size 568 (bytes 40..56 of the header), so the
blob wrapped (568 > 1024 − 512).  But the wrapped remainder is written at
byte 512 of the area — `write_metadata` hard-codes the wrap target
`MDA_HEADER_SIZE`, which is exactly where `start_off =
min(512, align_to(rl.offset + rl.size, 512) % size)` put the start of this
same blob (the `min` keeps every write at or before byte 512, the ring
never advances) — overwriting the blob's own first 56 bytes.  The
subsequent `read_metadata` reassembles a different byte sequence (reading
the wrapped part into `text[rl.size - first_read..]`, additionally the
wrong slice), its CRC check fails, and the read returns an error instead
of the blob, refuting wrap survival already for a single wrapping write. -/
theorem C4_wrapping_write_not_reread :
    PRes.map (fun f => (read_u64 (bytes_read f 40 8), read_u64 (bytes_read f 48 8)))
        (write_metadata mda_dev0 mda_map [⟨0, 1024⟩]) = PRes.ok (512, 568) ∧
      read_metadata mda_dev1 [⟨0, 1024⟩] = PRes.err := by
  exact ⟨by decide, by decide⟩

end Melvin

